import Mathlib

/-
Verification of the bf-dynasm compiler against its specification.

The development embeds the AST data model and the optimizer of
src/unnamed/part_000 (the variant with per-node line/column metadata,
AST_SET_CONST carrying value and offset, AST_MUL and AST_COPY_CELL),
the driver of src/unnamed/part_001, the debug map of src/bf_debug.c and
the profiler signal handler of src/bf_prof.c.

The sibling chain of ast_node_t is embedded directly: every constructor
carries its next sibling, and a loop carries its body, mirroring the C
struct with its next pointer and data.loop.body pointer.  NULL is the
nil constructor.
-/

namespace BfDynasm

/-- Source location carried by every ast_node_t (fields line and column). -/
structure Meta where
  line : Int
  column : Int
deriving DecidableEq, Repr

/-- The ast_node_t tagged union from bf_ast.h together with its sibling
chain: each constructor ends with the next sibling, and loop carries its
body chain.  Payloads follow the C fields: movePtr holds data.basic.count,
addVal holds data.basic.count and data.basic.offset, output and input hold
data.basic.offset, setConst holds the value and offset stored in
data.basic.count and data.basic.offset, mul holds data.mul.multiplier,
data.mul.src_offset and data.mul.dst_offset, copyCell holds
data.copy.src_offset and data.copy.dst_offset. -/
inductive Ast : Type where
  | nil : Ast
  | movePtr (count : Int) (m : Meta) (next : Ast)
  | addVal (count : Int) (offset : Int) (m : Meta) (next : Ast)
  | output (offset : Int) (m : Meta) (next : Ast)
  | input (offset : Int) (m : Meta) (next : Ast)
  | loop (body : Ast) (m : Meta) (next : Ast)
  | setConst (value : Int) (offset : Int) (m : Meta) (next : Ast)
  | mul (multiplier : Int) (srcOffset : Int) (dstOffset : Int) (m : Meta) (next : Ast)
  | copyCell (srcOffset : Int) (dstOffset : Int) (m : Meta) (next : Ast)
deriving DecidableEq, Repr

namespace Ast

/-- ast_count_nodes from part_000: counts the current node, the loop body
and the next chain. -/
def ast_count_nodes : Ast → Nat
  | .nil => 0
  | .movePtr _ _ nx => 1 + ast_count_nodes nx
  | .addVal _ _ _ nx => 1 + ast_count_nodes nx
  | .output _ _ nx => 1 + ast_count_nodes nx
  | .input _ _ nx => 1 + ast_count_nodes nx
  | .loop body _ nx => 1 + ast_count_nodes body + ast_count_nodes nx
  | .setConst _ _ _ nx => 1 + ast_count_nodes nx
  | .mul _ _ _ _ nx => 1 + ast_count_nodes nx
  | .copyCell _ _ _ nx => 1 + ast_count_nodes nx

end Ast

open Ast

/-- MAX_NESTING from src/unnamed/part_001. -/
def MAX_NESTING : Nat := 1000

/-- BF_DEFAULT_MEMORY_SIZE from src/unnamed/part_001. -/
def BF_DEFAULT_MEMORY_SIZE : Nat := 65536

/-- Default memory offset from src/unnamed/part_001 main. -/
def DEFAULT_MEMORY_OFFSET : Nat := 4096

/-- Modelled from the spec: the lexer file bf_lexer.l is not under src/,
so token positions and the loop-nesting limit come from spec sections 4.1
and 8 (every operator carries the position of its character, newline
resets the column to 1 and increments the line, all other characters are
skipped but advance the counters, and nesting deeper than MAX_NESTING is
a fatal parse error).  The grammar rules themselves are embedded from
src/bf_parser.y: each operator appends one node to the current sibling
chain, a bracket opens or closes a loop, and an unmatched bracket is a
parse error (parse_bf_program then exits nonzero).  The stack holds, for
each open loop, the partial sibling chain of the enclosing level (as
reversed constructor closures) and the position of the opening bracket;
depth mirrors the stack length. -/
def parse_go : List Char → List (List (Ast → Ast) × Meta) → Nat →
    List (Ast → Ast) → Int → Int → Option Ast
  | [], [], _, cur, _, _ => some (cur.foldl (fun tail f => f tail) Ast.nil)
  | [], _ :: _, _, _, _, _ => none
  | c :: rest, stack, depth, cur, line, col =>
    if c = '>' then
      parse_go rest stack depth (Ast.movePtr 1 ⟨line, col⟩ :: cur) line (col + 1)
    else if c = '<' then
      parse_go rest stack depth (Ast.movePtr (-1) ⟨line, col⟩ :: cur) line (col + 1)
    else if c = '+' then
      parse_go rest stack depth (Ast.addVal 1 0 ⟨line, col⟩ :: cur) line (col + 1)
    else if c = '-' then
      parse_go rest stack depth (Ast.addVal (-1) 0 ⟨line, col⟩ :: cur) line (col + 1)
    else if c = '.' then
      parse_go rest stack depth (Ast.output 0 ⟨line, col⟩ :: cur) line (col + 1)
    else if c = ',' then
      parse_go rest stack depth (Ast.input 0 ⟨line, col⟩ :: cur) line (col + 1)
    else if c = '[' then
      if depth + 1 > MAX_NESTING then none
      else parse_go rest ((cur, ⟨line, col⟩) :: stack) (depth + 1) [] line (col + 1)
    else if c = ']' then
      match stack with
      | [] => none
      | (parent, m) :: stack2 =>
        parse_go rest stack2 (depth - 1)
          (Ast.loop (cur.foldl (fun tail f => f tail) Ast.nil) m :: parent) line (col + 1)
    else if c = '\n' then
      parse_go rest stack depth cur (line + 1) 1
    else
      parse_go rest stack depth cur line (col + 1)

/-- parse_bf_program from src/bf_parser.y, over the character list of the
source file, starting at line 1 column 1.  Returns none where the C
program prints a parse error and exits nonzero. -/
def parse_bf_program (src : List Char) : Option Ast :=
  parse_go src [] 0 [] 1 1

/-! ## Optimizer (src/unnamed/part_000, lines 522-704) -/

/-- is_multiplication_loop from part_000: walks the loop body and accepts
only chains of AST_ADD_VAL and AST_MOVE_PTR nodes in which exactly one
node is an AST_ADD_VAL at offset 0, and that node has count -1 (any other
AST_ADD_VAL at offset 0 rejects the body).  The accumulator mirrors the
has_counter_decrement flag; the NULL body yields false because the flag
is still unset. -/
def is_mult_go : Ast → Bool → Bool
  | .nil, has => has
  | .addVal c o _ nx, has =>
      if o = 0 then
        if c = -1 && !has then is_mult_go nx true else false
      else is_mult_go nx has
  | .movePtr _ _ nx, has => is_mult_go nx has
  | _, _ => false

/-- is_multiplication_loop applied to the body of a loop node. -/
def is_multiplication_loop (body : Ast) : Bool :=
  is_mult_go body false

/-- The node chain built by the multiplication-loop branch of
ast_optimize: for every AST_ADD_VAL of the body with nonzero offset it
emits copyCell 0 offset when the count is 1 and mul count 0 offset
otherwise, every other body node is skipped, and the chain ends with
setConst 0 0 (clear_counter) followed by the original next chain.  Every
created node receives the line and column of the loop node via
ast_copy_location. -/
def emit_muls (body : Ast) (m : Meta) (tail : Ast) : Ast :=
  match body with
  | .addVal c o _ nx =>
      if o ≠ 0 then
        if c = 1 then Ast.copyCell 0 o m (emit_muls nx m tail)
        else Ast.mul c 0 o m (emit_muls nx m tail)
      else emit_muls nx m tail
  | .nil => Ast.setConst 0 0 m tail
  | .movePtr _ _ nx => emit_muls nx m tail
  | .output _ _ nx => emit_muls nx m tail
  | .input _ _ nx => emit_muls nx m tail
  | .loop _ _ nx => emit_muls nx m tail
  | .setConst _ _ _ nx => emit_muls nx m tail
  | .mul _ _ _ _ nx => emit_muls nx m tail
  | .copyCell _ _ _ nx => emit_muls nx m tail

/-- ast_optimize from part_000 (lines 547-704), with explicit fuel in
place of the C recursion; each recursive call spends one unit.  The
branches in order, exactly as in the C function:
run-length merging of two consecutive AST_MOVE_PTR nodes or two
consecutive AST_ADD_VAL nodes with the same offset (restarting from the
merged node, which keeps the first node and its location); recursive
optimization of the loop body and of the next chain; the clear-loop
rewrite for a loop whose body is a single AST_ADD_VAL with count -1 (the
offset is not inspected), replacing the node in place by setConst 0 0 and
falling through to the set-add check; the multiplication-loop rewrite
guarded by is_multiplication_loop, which restarts on the emitted chain;
the offset-add rewrite for movePtr n, addVal c, movePtr k with k = -n,
which builds addVal c n with the location of the first movePtr (the
middle offset is discarded) and restarts; and set-add coalescing of
setConst v o followed by addVal c 0 (the AST_ADD_VAL offset is compared
with 0, not with o), which restarts. -/
def ast_optimize_f : Nat → Ast → Ast
  | 0, node => node
  | _ + 1, .nil => .nil
  | fuel + 1, .movePtr c m nx =>
      match nx with
      | .movePtr c2 _ rest => ast_optimize_f fuel (.movePtr (c + c2) m rest)
      | _ =>
        let nx2 := ast_optimize_f fuel nx
        match nx2 with
        | .addVal c2 _ _ (.movePtr k _ rest) =>
            if k = -c then ast_optimize_f fuel (.addVal c2 c m rest)
            else .movePtr c m nx2
        | _ => .movePtr c m nx2
  | fuel + 1, .addVal c o m nx =>
      match nx with
      | .addVal c2 o2 m2 rest =>
          if o = o2 then ast_optimize_f fuel (.addVal (c + c2) o m rest)
          else .addVal c o m (ast_optimize_f fuel (.addVal c2 o2 m2 rest))
      | _ => .addVal c o m (ast_optimize_f fuel nx)
  | fuel + 1, .output o m nx => .output o m (ast_optimize_f fuel nx)
  | fuel + 1, .input o m nx => .input o m (ast_optimize_f fuel nx)
  | fuel + 1, .setConst v o m nx =>
      let nx2 := ast_optimize_f fuel nx
      match nx2 with
      | .addVal c2 o2 _ rest =>
          if o2 = 0 then ast_optimize_f fuel (.setConst (v + c2) o m rest)
          else .setConst v o m nx2
      | _ => .setConst v o m nx2
  | fuel + 1, .mul k s d m nx => .mul k s d m (ast_optimize_f fuel nx)
  | fuel + 1, .copyCell s d m nx => .copyCell s d m (ast_optimize_f fuel nx)
  | fuel + 1, .loop body m nx =>
      let body2 := ast_optimize_f fuel body
      let nx2 := ast_optimize_f fuel nx
      match body2 with
      | .addVal cb ob mb .nil =>
          if cb = -1 then
            match nx2 with
            | .addVal c2 o2 _ rest =>
                if o2 = 0 then ast_optimize_f fuel (.setConst (0 + c2) 0 m rest)
                else .setConst 0 0 m nx2
            | _ => .setConst 0 0 m nx2
          else if is_multiplication_loop (.addVal cb ob mb .nil) then
            ast_optimize_f fuel (emit_muls (.addVal cb ob mb .nil) m nx2)
          else .loop (.addVal cb ob mb .nil) m nx2
      | _ =>
          if body2 ≠ .nil && is_multiplication_loop body2 then
            ast_optimize_f fuel (emit_muls body2 m nx2)
          else .loop body2 m nx2

/-- ast_optimize with enough fuel for the rewriting to run to completion
(each restart strictly decreases the node count). -/
def ast_optimize (a : Ast) : Ast :=
  ast_optimize_f (ast_count_nodes a + 1) a

/-! ## Sequence rewriting (src/unnamed/part_000, lines 707-825) -/

/-- Net pointer movement of the basic block starting at a node: the sum
of the counts of the AST_MOVE_PTR nodes up to the first loop or the end
of the chain (total_ptr_movement in the scan of ast_rewrite_sequences). -/
def block_movement : Ast → Int
  | .movePtr c _ nx => c + block_movement nx
  | .nil => 0
  | .loop _ _ _ => 0
  | .addVal _ _ _ nx => block_movement nx
  | .output _ _ nx => block_movement nx
  | .input _ _ nx => block_movement nx
  | .setConst _ _ _ nx => block_movement nx
  | .mul _ _ _ _ nx => block_movement nx
  | .copyCell _ _ _ nx => block_movement nx

/-- Whether the basic block starting at a node contains an AST_MOVE_PTR
node (has_ptr_movements in ast_rewrite_sequences). -/
def block_has_move : Ast → Bool
  | .movePtr _ _ _ => true
  | .nil => false
  | .loop _ _ _ => false
  | .addVal _ _ _ nx => block_has_move nx
  | .output _ _ nx => block_has_move nx
  | .input _ _ nx => block_has_move nx
  | .setConst _ _ _ nx => block_has_move nx
  | .mul _ _ _ _ nx => block_has_move nx
  | .copyCell _ _ _ nx => block_has_move nx

/-- Number of nodes in the basic block starting at a node; the rewrite of
ast_rewrite_sequences fires only when block_start differs from block_end,
that is when this length is at least 2. -/
def block_len : Ast → Nat
  | .nil => 0
  | .loop _ _ _ => 0
  | .movePtr _ _ nx => 1 + block_len nx
  | .addVal _ _ _ nx => 1 + block_len nx
  | .output _ _ nx => 1 + block_len nx
  | .input _ _ nx => 1 + block_len nx
  | .setConst _ _ _ nx => 1 + block_len nx
  | .mul _ _ _ _ nx => 1 + block_len nx
  | .copyCell _ _ _ nx => 1 + block_len nx

/-- Walk state of ast_rewrite_sequences inside one basic block: atBlock
is the outer while loop positioned at the start of a block, inBlock
carries whether the block is being rewritten, the running offset
(current_offset), the net movement of the whole block
(total_ptr_movement) and the location of the first AST_MOVE_PTR seen
(first_move_node). -/
inductive RwMode : Type where
  | atBlock : RwMode
  | inBlock (rewrite : Bool) (off : Int) (total : Int) (fm : Option Meta) : RwMode

/-- The traversal of ast_rewrite_sequences, fuel-indexed (one unit per
visited node; the wrapper supplies enough).  At a block start it scans
the block (block_movement, block_has_move, block_len) and decides whether
to rewrite it; inside a rewritten block every AST_MOVE_PTR is marked by
setting its count to 0 (removed afterwards by remove_zero_moves), the
offsets of AST_ADD_VAL, AST_INPUT, AST_OUTPUT and AST_SET_CONST and both
offsets of AST_COPY_CELL are rebased by the running offset (AST_MUL is
not touched, as in the C switch), and at the block boundary a single
movePtr with the total movement and the location of the first consumed
AST_MOVE_PTR is inserted when the total is nonzero.  Loop bodies are
rewritten recursively. -/
def rw_seq_f : Nat → RwMode → Ast → Ast
  | 0, _, node => node
  | _ + 1, .atBlock, .nil => .nil
  | fuel + 1, .atBlock, .loop body m nx =>
      .loop (rw_seq_f fuel .atBlock body) m (rw_seq_f fuel .atBlock nx)
  | fuel + 1, .atBlock, node =>
      let doRw := decide (2 ≤ block_len node) && block_has_move node
      rw_seq_f fuel (.inBlock doRw 0 (block_movement node) none) node
  | _ + 1, .inBlock rwb _ total fm, .nil =>
      if rwb && total ≠ 0 then Ast.movePtr total (fm.getD ⟨0, 0⟩) Ast.nil
      else Ast.nil
  | fuel + 1, .inBlock rwb _ total fm, .loop body m2 nx =>
      if rwb && total ≠ 0 then
        Ast.movePtr total (fm.getD ⟨0, 0⟩)
          (Ast.loop (rw_seq_f fuel .atBlock body) m2 (rw_seq_f fuel .atBlock nx))
      else Ast.loop (rw_seq_f fuel .atBlock body) m2 (rw_seq_f fuel .atBlock nx)
  | fuel + 1, .inBlock rwb off total fm, .movePtr c m2 nx =>
      if rwb then
        Ast.movePtr 0 m2 (rw_seq_f fuel (.inBlock rwb (off + c) total (some (fm.getD m2))) nx)
      else
        Ast.movePtr c m2 (rw_seq_f fuel (.inBlock rwb (off + c) total fm) nx)
  | fuel + 1, .inBlock rwb off total fm, .addVal c o m2 nx =>
      Ast.addVal c (if rwb then o + off else o) m2 (rw_seq_f fuel (.inBlock rwb off total fm) nx)
  | fuel + 1, .inBlock rwb off total fm, .output o m2 nx =>
      Ast.output (if rwb then o + off else o) m2 (rw_seq_f fuel (.inBlock rwb off total fm) nx)
  | fuel + 1, .inBlock rwb off total fm, .input o m2 nx =>
      Ast.input (if rwb then o + off else o) m2 (rw_seq_f fuel (.inBlock rwb off total fm) nx)
  | fuel + 1, .inBlock rwb off total fm, .setConst v o m2 nx =>
      Ast.setConst v (if rwb then o + off else o) m2 (rw_seq_f fuel (.inBlock rwb off total fm) nx)
  | fuel + 1, .inBlock rwb off total fm, .copyCell s d m2 nx =>
      Ast.copyCell (if rwb then s + off else s) (if rwb then d + off else d) m2
        (rw_seq_f fuel (.inBlock rwb off total fm) nx)
  | fuel + 1, .inBlock rwb off total fm, .mul k s d m2 nx =>
      Ast.mul k s d m2 (rw_seq_f fuel (.inBlock rwb off total fm) nx)

/-- The removal pass at the end of ast_rewrite_sequences: every
AST_MOVE_PTR whose count is 0 (the mark set during the rewrite) is
unlinked.  The C function runs this pass once per recursion level; since
every level is visited by a recursive invocation, removal applies at
every nesting depth. -/
def remove_zero_moves : Ast → Ast
  | .nil => .nil
  | .movePtr c m nx =>
      if c = 0 then remove_zero_moves nx else .movePtr c m (remove_zero_moves nx)
  | .addVal c o m nx => .addVal c o m (remove_zero_moves nx)
  | .output o m nx => .output o m (remove_zero_moves nx)
  | .input o m nx => .input o m (remove_zero_moves nx)
  | .loop body m nx => .loop (remove_zero_moves body) m (remove_zero_moves nx)
  | .setConst v o m nx => .setConst v o m (remove_zero_moves nx)
  | .mul k s d m nx => .mul k s d m (remove_zero_moves nx)
  | .copyCell s d m nx => .copyCell s d m (remove_zero_moves nx)

/-- ast_rewrite_sequences with enough fuel for the whole traversal. -/
def ast_rewrite_sequences (a : Ast) : Ast :=
  remove_zero_moves (rw_seq_f (3 * ast_count_nodes a + 5) .atBlock a)

/-- The optimization pipeline of main in src/unnamed/part_001 (lines
374-383): with optimization enabled the parsed tree goes through
ast_rewrite_sequences and then ast_optimize; with --no-optimize it is
compiled as parsed. -/
def compile_pipeline (optimize : Bool) (a : Ast) : Ast :=
  if optimize then ast_optimize (ast_rewrite_sequences a) else a

/-! ## Execution semantics

Modelled from the spec: the DynASM instruction templates (bf_amd64.dasc,
bf_arm64.dasc) are not under src/, so the per-node semantics follow the
node lowering table of spec section 4.3: cells are bytes (stores wrap
modulo 256), a loop runs its body while the byte at the cursor is
nonzero, input on EOF leaves the cell unchanged, and copyCell behaves as
mul with multiplier 1. -/

/-- Machine state of the emitted code: the tape, the cursor, the pending
console input and the produced output bytes. -/
structure ExecState where
  tape : Int → Int
  pos : Int
  inp : List Int
  out : List Int

/-- Store one byte: the lowering table masks every stored value with 0xFF. -/
def writeCell (st : ExecState) (i v : Int) : ExecState :=
  { st with tape := fun j => if j = i then v % 256 else st.tape j }

/-- Fuel-indexed execution of a node chain, following the lowering table
of spec section 4.3.  Returns none when the fuel runs out (the real
program would still be running). -/
def bf_run : Nat → Ast → ExecState → Option ExecState
  | 0, _, _ => none
  | _ + 1, .nil, st => some st
  | fuel + 1, .movePtr c _ nx, st => bf_run fuel nx { st with pos := st.pos + c }
  | fuel + 1, .addVal c o _ nx, st =>
      bf_run fuel nx (writeCell st (st.pos + o) (st.tape (st.pos + o) + c))
  | fuel + 1, .output o _ nx, st =>
      bf_run fuel nx { st with out := st.out ++ [st.tape (st.pos + o)] }
  | fuel + 1, .input o _ nx, st =>
      match st.inp with
      | [] => bf_run fuel nx st
      | b :: bs => bf_run fuel nx (writeCell { st with inp := bs } (st.pos + o) b)
  | fuel + 1, .loop body m nx, st =>
      if st.tape st.pos ≠ 0 then
        match bf_run fuel body st with
        | some st2 => bf_run fuel (.loop body m nx) st2
        | none => none
      else bf_run fuel nx st
  | fuel + 1, .setConst v o _ nx, st => bf_run fuel nx (writeCell st (st.pos + o) v)
  | fuel + 1, .mul k s d _ nx, st =>
      bf_run fuel nx (writeCell st (st.pos + d) (st.tape (st.pos + d) + k * st.tape (st.pos + s)))
  | fuel + 1, .copyCell s d _ nx, st =>
      bf_run fuel nx (writeCell st (st.pos + d) (st.tape (st.pos + d) + st.tape (st.pos + s)))

/-- Initial machine state: zeroed tape, cursor at 0, given console input. -/
def initState (inp : List Int) : ExecState :=
  { tape := fun _ => 0, pos := 0, inp := inp, out := [] }

/-- Output bytes of a fuel-bounded run from the initial state. -/
def runOutput (fuel : Nat) (a : Ast) (inp : List Int) : Option (List Int) :=
  (bf_run fuel a (initState inp)).map ExecState.out

/-! ## Invariant predicates on sibling chains -/

/-- No AST_MOVE_PTR node is immediately followed by another AST_MOVE_PTR
or by an AST_ADD_VAL, at any nesting level.  This holds of the output of
ast_rewrite_sequences (a surviving movePtr is either a lone single-node
block or the residual inserted at a block boundary, hence followed by a
loop or by nothing) and is preserved by ast_optimize. -/
def mv_ok : Ast → Bool
  | .nil => true
  | .movePtr _ _ nx =>
      (match nx with
       | .movePtr _ _ _ => false
       | .addVal _ _ _ _ => false
       | _ => true) && mv_ok nx
  | .addVal _ _ _ nx => mv_ok nx
  | .output _ _ nx => mv_ok nx
  | .input _ _ nx => mv_ok nx
  | .loop body _ nx => mv_ok body && mv_ok nx
  | .setConst _ _ _ nx => mv_ok nx
  | .mul _ _ _ _ nx => mv_ok nx
  | .copyCell _ _ _ nx => mv_ok nx

/-- No two consecutive siblings are both AST_MOVE_PTR, and no two
consecutive siblings are both AST_ADD_VAL with the same offset, at any
nesting level (the coalescing invariants of the specification). -/
def inv_pairs : Ast → Bool
  | .nil => true
  | .movePtr _ _ nx =>
      (match nx with
       | .movePtr _ _ _ => false
       | _ => true) && inv_pairs nx
  | .addVal _ o _ nx =>
      (match nx with
       | .addVal _ o2 _ _ => decide (o ≠ o2)
       | _ => true) && inv_pairs nx
  | .output _ _ nx => inv_pairs nx
  | .input _ _ nx => inv_pairs nx
  | .loop body _ nx => inv_pairs body && inv_pairs nx
  | .setConst _ _ _ nx => inv_pairs nx
  | .mul _ _ _ _ nx => inv_pairs nx
  | .copyCell _ _ _ nx => inv_pairs nx

/-- No AST_SET_CONST node is immediately followed by an AST_ADD_VAL with
offset 0, at any nesting level: such a pair is exactly what the set-add
branch of ast_optimize consumes. -/
def no_set_add0 : Ast → Bool
  | .nil => true
  | .movePtr _ _ nx => no_set_add0 nx
  | .addVal _ _ _ nx => no_set_add0 nx
  | .output _ _ nx => no_set_add0 nx
  | .input _ _ nx => no_set_add0 nx
  | .loop body _ nx => no_set_add0 body && no_set_add0 nx
  | .setConst _ _ _ nx =>
      (match nx with
       | .addVal _ o2 _ _ => decide (o2 ≠ 0)
       | _ => true) && no_set_add0 nx
  | .mul _ _ _ _ nx => no_set_add0 nx
  | .copyCell _ _ _ nx => no_set_add0 nx

/-- Relation between the head node of a chain and the head node of its
optimization: a movePtr head stays a movePtr, an addVal or setConst head
keeps its kind and offset, a loop head can only become a loop, setConst,
mul or copyCell (never a movePtr or addVal), and the remaining kinds are
untouched. -/
def head_ok : Ast → Ast → Bool
  | .nil, y => match y with | .nil => true | _ => false
  | .movePtr _ _ _, y => match y with | .movePtr _ _ _ => true | _ => false
  | .addVal _ o _ _, y => match y with | .addVal _ o2 _ _ => decide (o = o2) | _ => false
  | .output _ _ _, y => match y with | .output _ _ _ => true | _ => false
  | .input _ _ _, y => match y with | .input _ _ _ => true | _ => false
  | .loop _ _ _, y =>
      match y with
      | .loop _ _ _ => true
      | .setConst _ _ _ _ => true
      | .mul _ _ _ _ _ => true
      | .copyCell _ _ _ _ => true
      | _ => false
  | .setConst _ o _ _, y => match y with | .setConst _ o2 _ _ => decide (o = o2) | _ => false
  | .mul _ _ _ _ _, y => match y with | .mul _ _ _ _ _ => true | _ => false
  | .copyCell _ _ _ _, y => match y with | .copyCell _ _ _ _ => true | _ => false

/-- Chains made only of AST_COPY_CELL, AST_MUL and AST_SET_CONST nodes,
the shape of the chain emitted by the multiplication-loop rewrite before
its tail; such chains are fixed points of ast_optimize. -/
def emit_like : Ast → Bool
  | .nil => true
  | .copyCell _ _ _ nx => emit_like nx
  | .mul _ _ _ _ nx => emit_like nx
  | .setConst _ _ _ nx => emit_like nx
  | _ => false

/-- Number of AST_ADD_VAL nodes with nonzero offset in a chain: the
number of mul or copyCell nodes the multiplication-loop rewrite emits. -/
def emit_count : Ast → Nat
  | .addVal _ o _ nx => (if o ≠ 0 then 1 else 0) + emit_count nx
  | .nil => 0
  | .movePtr _ _ nx => emit_count nx
  | .output _ _ nx => emit_count nx
  | .input _ _ nx => emit_count nx
  | .loop _ _ nx => emit_count nx
  | .setConst _ _ _ nx => emit_count nx
  | .mul _ _ _ _ nx => emit_count nx
  | .copyCell _ _ _ nx => emit_count nx

/-- Whether the chain of a loop body matches the clear-loop pattern of
ast_optimize: a single AST_ADD_VAL node with count -1, at any offset. -/
def clear_shape : Ast → Bool
  | .addVal c _ _ .nil => decide (c = -1)
  | _ => false

/-- Whether every node of a tree carries the given source location. -/
def all_nodes_at (m : Meta) : Ast → Bool
  | .nil => true
  | .movePtr _ m2 nx => decide (m2 = m) && all_nodes_at m nx
  | .addVal _ _ m2 nx => decide (m2 = m) && all_nodes_at m nx
  | .output _ m2 nx => decide (m2 = m) && all_nodes_at m nx
  | .input _ m2 nx => decide (m2 = m) && all_nodes_at m nx
  | .loop body m2 nx => decide (m2 = m) && all_nodes_at m body && all_nodes_at m nx
  | .setConst _ _ m2 nx => decide (m2 = m) && all_nodes_at m nx
  | .mul _ _ _ m2 nx => decide (m2 = m) && all_nodes_at m nx
  | .copyCell _ _ m2 nx => decide (m2 = m) && all_nodes_at m nx

/-- Whether a chain is exactly one setConst node with value 0 and
offset 0 (the post-optimization shape claimed for the clear-loop
scenario). -/
def is_single_set_const_zero : Ast → Bool
  | .setConst v o _ .nil => decide (v = 0 ∧ o = 0)
  | _ => false

/-- Whether somewhere in the tree a setConst node is immediately
followed by an addVal with the same offset. -/
def has_set_add_same : Ast → Bool
  | .nil => false
  | .movePtr _ _ nx => has_set_add_same nx
  | .addVal _ _ _ nx => has_set_add_same nx
  | .output _ _ nx => has_set_add_same nx
  | .input _ _ nx => has_set_add_same nx
  | .loop body _ nx => has_set_add_same body || has_set_add_same nx
  | .setConst _ o _ nx =>
      (match nx with
       | .addVal _ o2 _ _ => decide (o = o2)
       | _ => false) || has_set_add_same nx
  | .mul _ _ _ _ nx => has_set_add_same nx
  | .copyCell _ _ _ nx => has_set_add_same nx

/-! ## Code generation driver (src/unnamed/part_001) -/

/-- The loop-label allocation of ast_compile_direct: every AST_LOOP takes
two fresh labels (start_label and end_label) from the monotone counter,
which is threaded through the body and then the next chain.  Returns the
counter after the walk. -/
def ast_compile_direct_labels : Ast → Nat → Nat
  | .nil, n => n
  | .movePtr _ _ nx, n => ast_compile_direct_labels nx n
  | .addVal _ _ _ nx, n => ast_compile_direct_labels nx n
  | .output _ _ nx, n => ast_compile_direct_labels nx n
  | .input _ _ nx, n => ast_compile_direct_labels nx n
  | .loop body _ nx, n =>
      ast_compile_direct_labels nx (ast_compile_direct_labels body (n + 2))
  | .setConst _ _ _ nx, n => ast_compile_direct_labels nx n
  | .mul _ _ _ _ nx, n => ast_compile_direct_labels nx n
  | .copyCell _ _ _ nx, n => ast_compile_direct_labels nx n

/-- Number of AST_LOOP nodes in a tree. -/
def count_loops : Ast → Nat
  | .nil => 0
  | .movePtr _ _ nx => count_loops nx
  | .addVal _ _ _ nx => count_loops nx
  | .output _ _ nx => count_loops nx
  | .input _ _ nx => count_loops nx
  | .loop body _ nx => 1 + count_loops body + count_loops nx
  | .setConst _ _ _ nx => count_loops nx
  | .mul _ _ _ _ nx => count_loops nx
  | .copyCell _ _ _ nx => count_loops nx

/-- The PC-label pool reserved by compile_bf_ast: dasm_growpc receives
MAX_NESTING * 2 plus one debug label per IR node when profiling is
enabled (debug_label_count is ast_count_nodes, else 0). -/
def compile_bf_ast_label_budget (a : Ast) (profiling : Bool) : Nat :=
  MAX_NESTING * 2 + (if profiling then ast_count_nodes a else 0)

/-- The phases main runs through, in source order: the memory
configuration check (part_001 line 344), read_file, parse_bf_program,
the optimization passes, compile_bf_ast, allocate_guarded_memory and the
call of the compiled program. -/
inductive DriverPhase : Type where
  | configCheck : DriverPhase
  | readFile : DriverPhase
  | parsing : DriverPhase
  | optimizing : DriverPhase
  | compiling : DriverPhase
  | allocating : DriverPhase
  | executing : DriverPhase
deriving DecidableEq, Repr

/-- The memory-configuration check of main: memory_offset >= memory_size
is a fatal error (exit 1) and otherwise the configuration is used
unchanged. -/
def validate_memory_config (memory_offset memory_size : Nat) : Option (Nat × Nat) :=
  if memory_offset ≥ memory_size then none else some (memory_offset, memory_size)

/-- The control flow of main in src/unnamed/part_001: the phases executed
in order and the exit status.  The memory-configuration check runs before
read_file; a parse failure exits nonzero before any compilation; with
optimization enabled the two rewriting passes run between parsing and
compile_bf_ast; execution follows allocation. -/
def driver_run (memory_offset memory_size : Nat) (optimize : Bool) (src : List Char) :
    List DriverPhase × Nat :=
  match validate_memory_config memory_offset memory_size with
  | none => ([.configCheck], 1)
  | some _ =>
    match parse_bf_program src with
    | none => ([.configCheck, .readFile, .parsing], 1)
    | some _ =>
      ([.configCheck, .readFile, .parsing] ++
        (if optimize then [.optimizing] else []) ++
        [.compiling, .allocating, .executing], 0)

/-- End-to-end observable behaviour used for the refinement claim: parse
the source, apply the optimization pipeline of main when optimize is
true, execute the result against the console input with the given fuel,
and return the output byte stream. -/
def program_output (optimize : Bool) (src : List Char) (inp : List Int) (fuel : Nat) :
    Option (List Int) :=
  (parse_bf_program src).bind fun a => runOutput fuel (compile_pipeline optimize a) inp

/-! ## Nesting depth of the source text -/

/-- Modelled from the spec: running bracket depth of the source text,
starting from a given depth; the maximum over all prefixes is the
loop-nesting depth that the missing lexer compares against MAX_NESTING. -/
def max_depth_from : List Char → Int → Int
  | [], d => d
  | c :: rest, d =>
      if c = '[' then max (d + 1) (max_depth_from rest (d + 1))
      else if c = ']' then max_depth_from rest (d - 1)
      else max_depth_from rest d

/-- Whether the brackets of the source text are balanced when the scan
starts at the given depth: a closing bracket needs a positive depth and
the final depth must be 0. -/
def balanced_from : List Char → Int → Bool
  | [], d => decide (d = 0)
  | c :: rest, d =>
      if c = '[' then balanced_from rest (d + 1)
      else if c = ']' then decide (0 < d) && balanced_from rest (d - 1)
      else balanced_from rest d

/-! ## Debug map (src/bf_debug.c) and profiler (src/bf_prof.c) -/

/-- debug_map_entry_t from bf_debug.h: the PC label, the resolved code
offset, the node type tag (as a small code), the source position and the
payload summary stored by bf_debug_add_mapping. -/
structure DebugMapEntry where
  pc_label : Nat
  pc_offset : Nat
  node_type : Nat
  source_line : Int
  source_column : Int
  node_data : Int
deriving DecidableEq, Repr

/-- The linear scan of bf_debug_find_by_pc: among the entries whose
pc_offset is at most the target offset, keep the one with the smallest
distance; the comparison is strict, so the first of several entries at
the same pc_offset wins.  The accumulator carries the best entry and its
distance so far. -/
def find_by_pc_go : List DebugMapEntry → Nat → Option (DebugMapEntry × Nat) →
    Option DebugMapEntry
  | [], _, best => best.map Prod.fst
  | e :: rest, offset, best =>
      if e.pc_offset ≤ offset then
        let dist := offset - e.pc_offset
        match best with
        | some (_, bd) =>
            if dist < bd then find_by_pc_go rest offset (some (e, dist))
            else find_by_pc_go rest offset best
        | none => find_by_pc_go rest offset (some (e, dist))
      else find_by_pc_go rest offset best

/-- bf_debug_find_by_pc from src/bf_debug.c: translates the sampled pc
into an offset from code_start, rejects offsets at or beyond code_size,
and returns the closest preceding entry of the linear scan. -/
def bf_debug_find_by_pc (entries : List DebugMapEntry) (code_start code_size pc : Nat) :
    Option DebugMapEntry :=
  if pc < code_start then none
  else
    let offset := pc - code_start
    if offset ≥ code_size then none
    else find_by_pc_go entries offset none

/-- A step into the tree: into the body of a loop or to the next
sibling.  A path of steps names one ast_node_t of the tree, standing in
for its address; the profile_samples counters live in a map keyed by
these paths. -/
inductive TreeStep : Type where
  | intoBody : TreeStep
  | toNext : TreeStep
deriving DecidableEq, Repr

/-- bf_prof_find_ast_node from src/bf_prof.c as a path: the node itself
is checked first, then the loop body, then the next sibling, and the
first node whose line and column both match is returned. -/
def bf_prof_find_ast_node : Ast → Int → Int → Option (List TreeStep)
  | .nil, _, _ => none
  | .movePtr _ m nx, line, col =>
      if m.line = line ∧ m.column = col then some []
      else (bf_prof_find_ast_node nx line col).map (TreeStep.toNext :: ·)
  | .addVal _ _ m nx, line, col =>
      if m.line = line ∧ m.column = col then some []
      else (bf_prof_find_ast_node nx line col).map (TreeStep.toNext :: ·)
  | .output _ m nx, line, col =>
      if m.line = line ∧ m.column = col then some []
      else (bf_prof_find_ast_node nx line col).map (TreeStep.toNext :: ·)
  | .input _ m nx, line, col =>
      if m.line = line ∧ m.column = col then some []
      else (bf_prof_find_ast_node nx line col).map (TreeStep.toNext :: ·)
  | .loop body m nx, line, col =>
      if m.line = line ∧ m.column = col then some []
      else
        match bf_prof_find_ast_node body line col with
        | some p => some (TreeStep.intoBody :: p)
        | none => (bf_prof_find_ast_node nx line col).map (TreeStep.toNext :: ·)
  | .setConst _ _ m nx, line, col =>
      if m.line = line ∧ m.column = col then some []
      else (bf_prof_find_ast_node nx line col).map (TreeStep.toNext :: ·)
  | .mul _ _ _ m nx, line, col =>
      if m.line = line ∧ m.column = col then some []
      else (bf_prof_find_ast_node nx line col).map (TreeStep.toNext :: ·)
  | .copyCell _ _ m nx, line, col =>
      if m.line = line ∧ m.column = col then some []
      else (bf_prof_find_ast_node nx line col).map (TreeStep.toNext :: ·)

/-- bf_profiler_t together with the shared state the signal handler
reads: the bounded sample buffer with its capacity, the code region, the
enabled flag, the start time, the debug map (with the code_start and
code_size stored in bf_debug_info_t, set by main to the same code
region) and the AST root.  The per-node profile_samples counters are the
map from tree paths to counts. -/
structure ProfilerState where
  samples : List (Nat × Int)
  max_samples : Nat
  code_start : Nat
  code_end : Nat
  enabled : Bool
  start_time : Int
  debug_entries : List DebugMapEntry
  debug_code_start : Nat
  debug_code_size : Nat
  ast_root : Ast
  profile_samples : List TreeStep → Nat

/-- prof_signal_handler from src/bf_prof.c (lines 24-61) for a sample at
program counter pc taken at time now: a disabled profiler or a full
sample buffer drops the sample with no other change; a pc outside
code_start..code_end is ignored; otherwise the pair of pc and the
elapsed microseconds is appended, the debug map is searched with
bf_debug_find_by_pc, the AST node with the source position recorded in
the found entry is located by bf_prof_find_ast_node, and the
profile_samples counter of that node is incremented. -/
def prof_signal_handler (st : ProfilerState) (pc : Nat) (now : Int) : ProfilerState :=
  if st.enabled = false ∨ st.samples.length ≥ st.max_samples then st
  else if st.code_start ≤ pc ∧ pc < st.code_end then
    let st1 := { st with samples := st.samples ++ [(pc, now - st.start_time)] }
    match bf_debug_find_by_pc st.debug_entries st.debug_code_start st.debug_code_size pc with
    | some entry =>
      match bf_prof_find_ast_node st.ast_root entry.source_line entry.source_column with
      | some p =>
          { st1 with profile_samples :=
              fun q => if q = p then st.profile_samples q + 1 else st.profile_samples q }
      | none => st1
    | none => st1
  else st

/-- A concrete profiler state used to exercise the signal handler: one
debug entry at code offset 0 naming source position 1:1, an AST whose
root node sits at 1:1, an empty sample buffer of capacity 16, and the
code region 100..200. -/
def witness_prof_state : ProfilerState where
  samples := []
  max_samples := 16
  code_start := 100
  code_end := 200
  enabled := true
  start_time := 2
  debug_entries := [⟨0, 0, 1, 1, 1, 0⟩]
  debug_code_start := 100
  debug_code_size := 100
  ast_root := Ast.addVal 1 0 ⟨1, 1⟩ Ast.nil
  profile_samples := fun _ => 0

/-! ## Theorems -/

/-- C1: the optimized pipeline is not output-preserving.  For the valid
program +[->+>]<. with empty console input, compiling without
optimization outputs the single byte 1, while the optimized pipeline
outputs the single byte 0: after ast_rewrite_sequences leaves the
residual movePtr 2 at the end of the loop body, is_multiplication_loop
still accepts the body and the rewrite drops the pointer movement, so
the subsequent output reads a different cell. -/
theorem c1_optimized_pipeline_changes_output :
    program_output false ("+[->+>]<.".toList) [] 64 = some [1] ∧
    program_output true ("+[->+>]<.".toList) [] 64 = some [0] := by
  constructor <;> decide

/-- C2 counterexample: for the program +++++[-] the optimized IR is not
a single SetConst node; the run-length-folded addVal 5 0 in front of the
clear-loop rewrite is not coalesced (the set-add rule only fires when
the SetConst comes first), although the program indeed produces no
output. -/
theorem c2_counterexample_not_single_setconst :
    (parse_bf_program ("+++++[-]".toList)).map
        (fun a => is_single_set_const_zero (compile_pipeline true a)) = some false := by
  decide

/-- C2 amended: for the program +++++[-] the post-optimization IR is
addVal 5 0 followed by setConst 0 0 (the clear loop becomes the
SetConst, the preceding AddVal survives in front of it), and execution
produces no output. -/
theorem c2_clear_loop_scenario :
    (parse_bf_program ("+++++[-]".toList)).map (compile_pipeline true) =
      some (Ast.addVal 5 0 ⟨1, 1⟩ (Ast.setConst 0 0 ⟨1, 6⟩ Ast.nil)) ∧
    (parse_bf_program ("+++++[-]".toList)).bind
        (fun a => runOutput 64 (compile_pipeline true a) []) = some [] := by
  constructor <;> decide

/-- C3 counterexample: with offset o = 3, a setConst 5 3 immediately
followed by addVal 2 3 at the same offset is left completely unchanged
by ast_optimize (the rule compares the AddVal offset with 0, not with
the SetConst offset), so the rewrite claimed for every offset does not
happen and the output still contains a SetConst immediately followed by
a same-offset AddVal. -/
theorem c3_counterexample_same_offset_not_coalesced :
    ast_optimize (Ast.setConst 5 3 ⟨1, 1⟩ (Ast.addVal 2 3 ⟨1, 2⟩ Ast.nil)) =
      Ast.setConst 5 3 ⟨1, 1⟩ (Ast.addVal 2 3 ⟨1, 2⟩ Ast.nil) ∧
    has_set_add_same
      (ast_optimize (Ast.setConst 5 3 ⟨1, 1⟩ (Ast.addVal 2 3 ⟨1, 2⟩ Ast.nil))) = true := by
  constructor <;> decide

/-- C5 counterexample: the loop with body addVal (-1) 1 does not match
the multiplication rule (its body has no counter decrement at offset 0,
as is_multiplication_loop confirms), yet ast_optimize does not leave it
intact: the clear-loop branch, which never inspects the offset, replaces
it by setConst 0 0. -/
theorem c5_counterexample_nonmatching_loop_rewritten :
    is_multiplication_loop (Ast.addVal (-1) 1 ⟨1, 2⟩ Ast.nil) = false ∧
    ast_optimize (Ast.loop (Ast.addVal (-1) 1 ⟨1, 2⟩ Ast.nil) ⟨1, 1⟩ Ast.nil) =
      Ast.setConst 0 0 ⟨1, 1⟩ Ast.nil := by
  constructor <;> decide

/-- C10: ast_optimize rewrites every loop whose body is a single addVal
with count -1 into setConst 0 0, whatever the offset of that addVal is;
in particular the program [>-<], whose loop body after
ast_rewrite_sequences is the single addVal (-1) 1, compiles to the
single store setConst 0 0. -/
theorem c10_clear_loop_ignores_offset :
    (∀ (o : Int) (m m2 : Meta),
      ast_optimize (Ast.loop (Ast.addVal (-1) o m Ast.nil) m2 Ast.nil) =
        Ast.setConst 0 0 m2 Ast.nil) ∧
    (parse_bf_program ("[>-<]".toList)).map (compile_pipeline true) =
      some (Ast.setConst 0 0 ⟨1, 1⟩ Ast.nil) := by
  refine ⟨fun o m m2 => rfl, by decide⟩

/-- C8: main validates the memory configuration right after option
parsing: memory_offset >= memory_size stops the driver with exit status
1 before the tape allocation and before any compilation, and
memory_offset < memory_size passes the check with the configuration
unchanged. -/
theorem c8_memory_config_check :
    (∀ (off size : Nat) (opt : Bool) (src : List Char), off ≥ size →
      driver_run off size opt src = ([DriverPhase.configCheck], 1) ∧
      DriverPhase.allocating ∉ (driver_run off size opt src).1 ∧
      DriverPhase.compiling ∉ (driver_run off size opt src).1) ∧
    (∀ off size : Nat, off < size →
      validate_memory_config off size = some (off, size)) := by
  constructor
  · intro off size opt src h
    have hv : validate_memory_config off size = none := by
      simp [validate_memory_config, h]
    refine ⟨?_, ?_, ?_⟩ <;> simp [driver_run, hv]
  · intro off size h
    simp [validate_memory_config, Nat.not_le.mpr h]

/-- C8 witness: the default offset 4096 with an equal memory size 4096
is rejected before allocation, and the default configuration
4096 < 65536 passes unchanged. -/
theorem c8_memory_config_check_witness :
    driver_run 4096 4096 true [] = ([DriverPhase.configCheck], 1) ∧
    validate_memory_config DEFAULT_MEMORY_OFFSET BF_DEFAULT_MEMORY_SIZE =
      some (DEFAULT_MEMORY_OFFSET, BF_DEFAULT_MEMORY_SIZE) := by
  exact ⟨(c8_memory_config_check.1 4096 4096 true [] (by decide)).1,
    c8_memory_config_check.2 DEFAULT_MEMORY_OFFSET BF_DEFAULT_MEMORY_SIZE (by decide)⟩

/-- Helper: a source text whose running bracket depth exceeds
MAX_NESTING at some prefix is rejected by the parser, whatever the
surrounding parser state is; the depth argument tracks the stack
length. -/
theorem parse_go_deep_none (src : List Char) :
    ∀ (stack : List (List (Ast → Ast) × Meta)) (depth : Nat)
      (cur : List (Ast → Ast)) (line col : Int),
      depth = stack.length → (1000 : Int) < max_depth_from src depth →
      parse_go src stack depth cur line col = none := by
  induction src with
  | nil =>
    intro stack depth cur line col hd hmax
    simp only [max_depth_from] at hmax
    cases stack with
    | nil =>
      subst hd
      simp at hmax
    | cons p t => simp [parse_go]
  | cons c rest ih =>
    intro stack depth cur line col hd hmax
    by_cases h1 : c = '>'
    · subst h1
      simp only [max_depth_from, reduceIte] at hmax
      simp only [parse_go, reduceIte]
      exact ih stack depth _ line (col + 1) hd hmax
    · by_cases h2 : c = '<'
      · subst h2
        simp only [max_depth_from, reduceIte] at hmax
        simp only [parse_go, reduceIte]
        exact ih stack depth _ line (col + 1) hd hmax
      · by_cases h3 : c = '+'
        · subst h3
          simp only [max_depth_from, reduceIte] at hmax
          simp only [parse_go, reduceIte]
          exact ih stack depth _ line (col + 1) hd hmax
        · by_cases h4 : c = '-'
          · subst h4
            simp only [max_depth_from, reduceIte] at hmax
            simp only [parse_go, reduceIte]
            exact ih stack depth _ line (col + 1) hd hmax
          · by_cases h5 : c = '.'
            · subst h5
              simp only [max_depth_from, reduceIte] at hmax
              simp only [parse_go, reduceIte]
              exact ih stack depth _ line (col + 1) hd hmax
            · by_cases h6 : c = ','
              · subst h6
                simp only [max_depth_from, reduceIte] at hmax
                simp only [parse_go, reduceIte]
                exact ih stack depth _ line (col + 1) hd hmax
              · by_cases h7 : c = '['
                · subst h7
                  simp only [max_depth_from, reduceIte] at hmax
                  simp only [parse_go, reduceIte]
                  by_cases hlim : depth + 1 > MAX_NESTING
                  · simp [hlim]
                  · simp only [hlim, reduceIte]
                    apply ih _ (depth + 1) _ line (col + 1) (by simp [hd])
                    rcases lt_max_iff.mp hmax with h | h
                    · exfalso
                      rw [MAX_NESTING] at hlim
                      omega
                    · exact_mod_cast h
                · by_cases h8 : c = ']'
                  · subst h8
                    simp only [max_depth_from, reduceIte] at hmax
                    simp only [parse_go, reduceIte]
                    cases stack with
                    | nil => rfl
                    | cons p t =>
                      apply ih _ (depth - 1) _ line (col + 1) (by simp [hd])
                      have hdepth : 1 ≤ depth := by simp [hd]
                      have : ((depth - 1 : Nat) : Int) = (depth : Int) - 1 := by omega
                      rw [this]
                      exact hmax
                  · by_cases h9 : c = '\n'
                    · subst h9
                      simp only [max_depth_from, reduceIte] at hmax
                      simp only [parse_go, reduceIte]
                      exact ih stack depth _ (line + 1) 1 hd hmax
                    · simp only [max_depth_from, h1, h2, h3, h4, h5, h6, h7, h8, h9,
                        reduceIte] at hmax
                      simp only [parse_go, h1, h2, h3, h4, h5, h6, h7, h8, h9, reduceIte]
                      exact ih stack depth _ line (col + 1) hd hmax

/-- Helper: a source text that is bracket-balanced from the current
depth and whose running depth stays within MAX_NESTING parses
successfully from any parser state whose stack matches the depth. -/
theorem parse_go_ok_some (src : List Char) :
    ∀ (stack : List (List (Ast → Ast) × Meta)) (depth : Nat)
      (cur : List (Ast → Ast)) (line col : Int),
      depth = stack.length → balanced_from src depth = true →
      max_depth_from src depth ≤ 1000 →
      ∃ a, parse_go src stack depth cur line col = some a := by
  induction src with
  | nil =>
    intro stack depth cur line col hd hbal hmax
    have hdep : (depth : Int) = 0 := by
      simp only [balanced_from] at hbal
      exact of_decide_eq_true hbal
    cases stack with
    | nil => exact ⟨_, rfl⟩
    | cons p t =>
      exfalso
      rw [hd] at hdep
      simp only [List.length_cons] at hdep
      push_cast at hdep
      omega
  | cons c rest ih =>
    intro stack depth cur line col hd hbal hmax
    by_cases h1 : c = '>'
    · subst h1
      simp only [balanced_from, reduceIte] at hbal
      simp only [max_depth_from, reduceIte] at hmax
      simp only [parse_go, reduceIte]
      exact ih stack depth _ line (col + 1) hd hbal hmax
    · by_cases h2 : c = '<'
      · subst h2
        simp only [balanced_from, reduceIte] at hbal
        simp only [max_depth_from, reduceIte] at hmax
        simp only [parse_go, reduceIte]
        exact ih stack depth _ line (col + 1) hd hbal hmax
      · by_cases h3 : c = '+'
        · subst h3
          simp only [balanced_from, reduceIte] at hbal
          simp only [max_depth_from, reduceIte] at hmax
          simp only [parse_go, reduceIte]
          exact ih stack depth _ line (col + 1) hd hbal hmax
        · by_cases h4 : c = '-'
          · subst h4
            simp only [balanced_from, reduceIte] at hbal
            simp only [max_depth_from, reduceIte] at hmax
            simp only [parse_go, reduceIte]
            exact ih stack depth _ line (col + 1) hd hbal hmax
          · by_cases h5 : c = '.'
            · subst h5
              simp only [balanced_from, reduceIte] at hbal
              simp only [max_depth_from, reduceIte] at hmax
              simp only [parse_go, reduceIte]
              exact ih stack depth _ line (col + 1) hd hbal hmax
            · by_cases h6 : c = ','
              · subst h6
                simp only [balanced_from, reduceIte] at hbal
                simp only [max_depth_from, reduceIte] at hmax
                simp only [parse_go, reduceIte]
                exact ih stack depth _ line (col + 1) hd hbal hmax
              · by_cases h7 : c = '['
                · subst h7
                  simp only [balanced_from, reduceIte] at hbal
                  simp only [max_depth_from, reduceIte] at hmax
                  simp only [parse_go, reduceIte]
                  have hmax1 : max_depth_from rest ((depth : Int) + 1) ≤ 1000 :=
                    le_trans (le_max_right _ _) hmax
                  have hlim : ¬(depth + 1 > MAX_NESTING) := by
                    have := le_trans (le_max_left _ _) hmax
                    rw [MAX_NESTING]
                    omega
                  simp only [hlim, reduceIte]
                  have : ((depth : Int) + 1) = ((depth + 1 : Nat) : Int) := by push_cast; ring
                  rw [this] at hbal hmax1
                  exact ih _ (depth + 1) _ line (col + 1) (by simp [hd]) hbal hmax1
                · by_cases h8 : c = ']'
                  · subst h8
                    simp only [balanced_from, reduceIte] at hbal
                    have hpos : (0 : Int) < depth := by
                      by_contra hneg
                      rw [decide_eq_false hneg] at hbal
                      simp at hbal
                    have hbal2 : balanced_from rest ((depth : Int) - 1) = true := by
                      rw [decide_eq_true hpos] at hbal
                      simpa using hbal
                    simp only [max_depth_from, reduceIte] at hmax
                    simp only [parse_go, reduceIte]
                    cases stack with
                    | nil =>
                      exfalso
                      rw [hd] at hpos
                      simp at hpos
                    | cons p t =>
                      have hdepth : 1 ≤ depth := by
                        rw [hd]
                        simp
                      have hcast : ((depth - 1 : Nat) : Int) = (depth : Int) - 1 := by omega
                      rw [← hcast] at hbal2 hmax
                      exact ih _ (depth - 1) _ line (col + 1) (by simp [hd]) hbal2 hmax
                  · by_cases h9 : c = '\n'
                    · subst h9
                      simp only [balanced_from, reduceIte] at hbal
                      simp only [max_depth_from, reduceIte] at hmax
                      simp only [parse_go, reduceIte]
                      exact ih stack depth _ (line + 1) 1 hd hbal hmax
                    · simp only [balanced_from, h1, h2, h3, h4, h5, h6, h7, h8, h9,
                        reduceIte] at hbal
                      simp only [max_depth_from, h1, h2, h3, h4, h5, h6, h7, h8, h9,
                        reduceIte] at hmax
                      simp only [parse_go, h1, h2, h3, h4, h5, h6, h7, h8, h9, reduceIte]
                      exact ih stack depth _ line (col + 1) hd hbal hmax

/-- Helper: ast_compile_direct allocates exactly two fresh PC labels per
AST_LOOP node, threading the counter through body and siblings. -/
theorem ast_compile_direct_labels_eq (a : Ast) :
    ∀ n : Nat, ast_compile_direct_labels a n = n + 2 * count_loops a := by
  induction a with
  | nil => intro n; simp [ast_compile_direct_labels, count_loops]
  | movePtr c m nx ih => intro n; simp [ast_compile_direct_labels, count_loops, ih]
  | addVal c o m nx ih => intro n; simp [ast_compile_direct_labels, count_loops, ih]
  | output o m nx ih => intro n; simp [ast_compile_direct_labels, count_loops, ih]
  | input o m nx ih => intro n; simp [ast_compile_direct_labels, count_loops, ih]
  | loop body m nx ihb ihn =>
    intro n
    simp only [ast_compile_direct_labels, count_loops, ihb, ihn]
    ring
  | setConst v o m nx ih => intro n; simp [ast_compile_direct_labels, count_loops, ih]
  | mul k s d m nx ih => intro n; simp [ast_compile_direct_labels, count_loops, ih]
  | copyCell s d m nx ih => intro n; simp [ast_compile_direct_labels, count_loops, ih]

/-- C7: a bracket-balanced program whose loop nesting stays within
MAX_NESTING parses and is carried through every driver phase up to
compilation and execution with exit status 0, while a program whose
nesting depth exceeds MAX_NESTING fails in the parser and the driver
exits with status 1 without ever compiling or executing; moreover
ast_compile_direct consumes exactly two loop labels per loop, matching
the 2 * MAX_NESTING loop-label share of the pool that compile_bf_ast
reserves with dasm_growpc. -/
theorem c7_nesting_limit :
    (∀ src : List Char, balanced_from src 0 = true → max_depth_from src 0 ≤ 1000 →
      ∃ a, parse_bf_program src = some a ∧
        ∀ off size : Nat, off < size →
          driver_run off size true src =
            ([DriverPhase.configCheck, DriverPhase.readFile, DriverPhase.parsing,
              DriverPhase.optimizing, DriverPhase.compiling, DriverPhase.allocating,
              DriverPhase.executing], 0)) ∧
    (∀ src : List Char, 1000 < max_depth_from src 0 →
      parse_bf_program src = none ∧
      ∀ (off size : Nat) (opt : Bool), off < size →
        driver_run off size opt src =
          ([DriverPhase.configCheck, DriverPhase.readFile, DriverPhase.parsing], 1) ∧
        DriverPhase.compiling ∉ (driver_run off size opt src).1 ∧
        DriverPhase.executing ∉ (driver_run off size opt src).1) ∧
    (∀ (a : Ast) (n : Nat), ast_compile_direct_labels a n = n + 2 * count_loops a) := by
  refine ⟨?_, ?_, fun a n => ast_compile_direct_labels_eq a n⟩
  · intro src hbal hmax
    obtain ⟨a, ha⟩ := parse_go_ok_some src [] 0 [] 1 1 rfl (by exact_mod_cast hbal)
      (by exact_mod_cast hmax)
    refine ⟨a, ha, fun off size hlt => ?_⟩
    have hv : validate_memory_config off size = some (off, size) := by
      simp [validate_memory_config, Nat.not_le.mpr hlt]
    simp [driver_run, hv, parse_bf_program] at ha ⊢
    simp [ha]
  · intro src hmax
    have hp : parse_bf_program src = none :=
      parse_go_deep_none src [] 0 [] 1 1 rfl (by exact_mod_cast hmax)
    refine ⟨hp, fun off size opt hlt => ?_⟩
    have hv : validate_memory_config off size = some (off, size) := by
      simp [validate_memory_config, Nat.not_le.mpr hlt]
    refine ⟨?_, ?_, ?_⟩ <;> simp [driver_run, hv, hp]

/-- Helper: a run of n opening brackets raises the running depth by
exactly n. -/
theorem max_depth_replicate (n : Nat) :
    ∀ d : Int, max_depth_from (List.replicate n '[') d = d + n := by
  induction n with
  | zero => intro d; simp [max_depth_from]
  | succ k ih =>
    intro d
    simp only [List.replicate_succ, max_depth_from, reduceIte, ih]
    push_cast
    omega

/-- C7 witness: the program of two nested loops parses and runs through
all driver phases, while the program of 1001 opening brackets exceeds
the nesting limit, fails to parse and never reaches compilation. -/
theorem c7_nesting_limit_witness :
    (∃ a, parse_bf_program ("[[]]".toList) = some a ∧
      ∀ off size : Nat, off < size →
        driver_run off size true ("[[]]".toList) =
          ([DriverPhase.configCheck, DriverPhase.readFile, DriverPhase.parsing,
            DriverPhase.optimizing, DriverPhase.compiling, DriverPhase.allocating,
            DriverPhase.executing], 0)) ∧
    parse_bf_program (List.replicate 1001 '[') = none ∧
    ast_compile_direct_labels (Ast.loop (Ast.loop Ast.nil ⟨1, 2⟩ Ast.nil) ⟨1, 1⟩ Ast.nil) 0 = 4 := by
  refine ⟨c7_nesting_limit.1 ("[[]]".toList) (by decide) (by decide), ?_, ?_⟩
  · refine (c7_nesting_limit.2.1 (List.replicate 1001 '[') ?_).1
    rw [max_depth_replicate]
    norm_num
  · rw [c7_nesting_limit.2.2]
    simp [count_loops]

/-- C4: ast_optimize collapses the sibling triple movePtr n, addVal c at
offset 0, movePtr k into the single node addVal c n exactly when k is
the negation of n (the rewritten node keeps the location of the first
movePtr); when the two movePtr counts do not cancel exactly, the triple
is left unchanged. -/
theorem c4_offset_add_collapse :
    (∀ (n c : Int) (m1 m2 m3 : Meta),
      ast_optimize (Ast.movePtr n m1 (Ast.addVal c 0 m2 (Ast.movePtr (-n) m3 Ast.nil))) =
        Ast.addVal c n m1 Ast.nil) ∧
    (∀ (n c k : Int) (m1 m2 m3 : Meta), k ≠ -n →
      ast_optimize (Ast.movePtr n m1 (Ast.addVal c 0 m2 (Ast.movePtr k m3 Ast.nil))) =
        Ast.movePtr n m1 (Ast.addVal c 0 m2 (Ast.movePtr k m3 Ast.nil))) := by
  constructor
  · intro n c m1 m2 m3
    simp [ast_optimize, ast_count_nodes, ast_optimize_f]
  · intro n c k m1 m2 m3 h
    simp [ast_optimize, ast_count_nodes, ast_optimize_f, h]

/-- C4 witness: with n = 1, c = 5 the collapse produces addVal 5 1, and
with the non-cancelling second count k = 2 the triple survives. -/
theorem c4_offset_add_collapse_witness :
    ast_optimize (Ast.movePtr 1 ⟨1, 1⟩ (Ast.addVal 5 0 ⟨1, 2⟩ (Ast.movePtr (-1) ⟨1, 3⟩ Ast.nil))) =
      Ast.addVal 5 1 ⟨1, 1⟩ Ast.nil ∧
    ast_optimize (Ast.movePtr 1 ⟨1, 1⟩ (Ast.addVal 5 0 ⟨1, 2⟩ (Ast.movePtr 2 ⟨1, 3⟩ Ast.nil))) =
      Ast.movePtr 1 ⟨1, 1⟩ (Ast.addVal 5 0 ⟨1, 2⟩ (Ast.movePtr 2 ⟨1, 3⟩ Ast.nil)) := by
  exact ⟨c4_offset_add_collapse.1 1 5 ⟨1, 1⟩ ⟨1, 2⟩ ⟨1, 3⟩,
    c4_offset_add_collapse.2 1 5 2 ⟨1, 1⟩ ⟨1, 2⟩ ⟨1, 3⟩ (by decide)⟩

/-- C9: when the sample buffer is full the profiler signal handler drops
the sample and changes nothing; otherwise, for an enabled profiler and a
sampled pc inside the code region, the pair of pc and the elapsed
microseconds is appended to the buffer and the profile_samples counter
of exactly the IR node that the bf_debug_find_by_pc lookup (followed by
the bf_prof_find_ast_node position search that the handler uses to reach
the node) associates with pc is incremented by one, while every other
counter and all remaining profiler fields are untouched. -/
theorem c9_signal_handler :
    (∀ (st : ProfilerState) (pc : Nat) (now : Int),
      st.samples.length ≥ st.max_samples → prof_signal_handler st pc now = st) ∧
    (∀ (st : ProfilerState) (pc : Nat) (now : Int) (entry : DebugMapEntry)
        (p : List TreeStep),
      st.enabled = true →
      st.samples.length < st.max_samples →
      st.code_start ≤ pc → pc < st.code_end →
      bf_debug_find_by_pc st.debug_entries st.debug_code_start st.debug_code_size pc =
        some entry →
      bf_prof_find_ast_node st.ast_root entry.source_line entry.source_column = some p →
      (prof_signal_handler st pc now).samples = st.samples ++ [(pc, now - st.start_time)] ∧
      (prof_signal_handler st pc now).profile_samples p = st.profile_samples p + 1 ∧
      (∀ q : List TreeStep, q ≠ p →
        (prof_signal_handler st pc now).profile_samples q = st.profile_samples q) ∧
      (prof_signal_handler st pc now).max_samples = st.max_samples ∧
      (prof_signal_handler st pc now).code_start = st.code_start ∧
      (prof_signal_handler st pc now).code_end = st.code_end ∧
      (prof_signal_handler st pc now).enabled = st.enabled ∧
      (prof_signal_handler st pc now).start_time = st.start_time ∧
      (prof_signal_handler st pc now).ast_root = st.ast_root) := by
  constructor
  · intro st pc now h
    unfold prof_signal_handler
    rw [if_pos (Or.inr h)]
  · intro st pc now entry p h1 h2 h3 h4 h5 h6
    have hcond : ¬(st.enabled = false ∨ st.samples.length ≥ st.max_samples) :=
      not_or.mpr ⟨by simp [h1], Nat.not_le.mpr h2⟩
    unfold prof_signal_handler
    rw [if_neg hcond, if_pos ⟨h3, h4⟩]
    simp only [h5, h6]
    exact ⟨by simp, by simp, fun q hq => by simp [hq], by simp, by simp, by simp,
      by simp, by simp, by simp⟩

/-- C9 witness: on the concrete profiler state, a sample at pc 150 taken
at time 5 is appended as the pair of 150 and the elapsed time 3, and the
counter of the root node (the empty path) goes from 0 to 1. -/
theorem c9_signal_handler_witness :
    (prof_signal_handler witness_prof_state 150 5).samples = [(150, 3)] ∧
    (prof_signal_handler witness_prof_state 150 5).profile_samples [] = 1 := by
  have h := c9_signal_handler.2 witness_prof_state 150 5 ⟨0, 0, 1, 1, 1, 0⟩ []
    rfl (by decide) (by decide) (by decide) (by decide) (by decide)
  refine ⟨?_, ?_⟩
  · rw [h.1]
    decide
  · rw [h.2.1]
    decide

/-! ### Supporting lemmas about the optimizer -/

/-- Helper: optimizing the empty chain yields the empty chain at any
fuel. -/
theorem ast_optimize_f_nil : ∀ f : Nat, ast_optimize_f f Ast.nil = Ast.nil := by
  intro f
  cases f <;> rfl

/-- Helper: the chain emitted by the multiplication-loop rewrite
consists of copyCell, mul and setConst nodes followed by the tail. -/
theorem emit_like_emit_muls (b : Ast) (m : Meta) (t : Ast) (ht : emit_like t = true) :
    emit_like (emit_muls b m t) = true := by
  induction b with
  | nil => simpa [emit_muls, emit_like] using ht
  | movePtr c m2 nx ih => simpa [emit_muls] using ih
  | addVal c o m2 nx ih =>
    by_cases ho : o ≠ 0
    · by_cases hc : c = 1 <;> simp [emit_muls, ho, hc, emit_like, ih]
    · simp [emit_muls, ho, ih]
  | output o m2 nx ih => simpa [emit_muls] using ih
  | input o m2 nx ih => simpa [emit_muls] using ih
  | loop body m2 nx _ ih => simpa [emit_muls] using ih
  | setConst v o m2 nx ih => simpa [emit_muls] using ih
  | mul k s d m2 nx ih => simpa [emit_muls] using ih
  | copyCell s d m2 nx ih => simpa [emit_muls] using ih

/-- Helper: chains of copyCell, mul and setConst nodes are fixed points
of ast_optimize_f at every fuel: none of the rewrite rules applies to
them. -/
theorem emit_like_fix : ∀ (x : Ast) (f : Nat), emit_like x = true → ast_optimize_f f x = x := by
  intro x
  induction x with
  | nil => intro f _; exact ast_optimize_f_nil f
  | movePtr c m nx _ => intro f h; simp [emit_like] at h
  | addVal c o m nx _ => intro f h; simp [emit_like] at h
  | output o m nx _ => intro f h; simp [emit_like] at h
  | input o m nx _ => intro f h; simp [emit_like] at h
  | loop body m nx _ _ => intro f h; simp [emit_like] at h
  | setConst v o m nx ih =>
    intro f h
    rw [emit_like] at h
    cases f with
    | zero => rfl
    | succ fuel =>
      rw [ast_optimize_f, ih fuel h]
      cases nx <;> simp_all [emit_like]
  | mul k s d m nx ih =>
    intro f h
    rw [emit_like] at h
    cases f with
    | zero => rfl
    | succ fuel => rw [ast_optimize_f, ih fuel h]
  | copyCell s d m nx ih =>
    intro f h
    rw [emit_like] at h
    cases f with
    | zero => rfl
    | succ fuel => rw [ast_optimize_f, ih fuel h]

/-- Helper: a body accepted by is_mult_go contains, beyond its addVal
nodes with nonzero offset, at least the counter decrement when the flag
is still unset, so the emitted nodes number at most the body nodes. -/
theorem emit_count_le (b : Ast) :
    ∀ has : Bool, is_mult_go b has = true →
      emit_count b + (if has then 0 else 1) ≤ ast_count_nodes b := by
  induction b with
  | nil => intro has h; cases has <;> simp_all [is_mult_go, emit_count, ast_count_nodes]
  | movePtr c m nx ih =>
    intro has h
    rw [is_mult_go] at h
    have := ih has h
    cases has <;> simp_all [emit_count, ast_count_nodes] <;> omega
  | addVal c o m nx ih =>
    intro has h
    rw [is_mult_go] at h
    by_cases ho : o = 0
    · rw [if_pos ho] at h
      have hc : (c = -1 && !has) = true := by
        by_contra hneg
        rw [Bool.not_eq_true] at hneg
        rw [hneg] at h
        simp at h
      rw [if_pos hc] at h
      have hhas : has = false := by
        have hc2 := hc
        rw [Bool.and_eq_true] at hc2
        simpa using hc2.2
      have := ih true h
      subst hhas
      simp_all [emit_count, ast_count_nodes, ho]
      omega
    · rw [if_neg ho] at h
      have := ih has h
      cases has <;> simp_all [emit_count, ast_count_nodes, ho]
      all_goals omega
  | output o m nx ih => intro has h; simp [is_mult_go] at h
  | input o m nx ih => intro has h; simp [is_mult_go] at h
  | loop body m nx _ ih => intro has h; simp [is_mult_go] at h
  | setConst v o m nx ih => intro has h; simp [is_mult_go] at h
  | mul k s d m nx ih => intro has h; simp [is_mult_go] at h
  | copyCell s d m nx ih => intro has h; simp [is_mult_go] at h

/-- Helper: node count of the chain emitted by the multiplication-loop
rewrite. -/
theorem count_emit_muls (b : Ast) (m : Meta) (t : Ast) :
    ast_count_nodes (emit_muls b m t) = emit_count b + 1 + ast_count_nodes t := by
  induction b with
  | nil => simp [emit_muls, emit_count, ast_count_nodes]
  | movePtr c m2 nx ih => simp [emit_muls, emit_count, ih]
  | addVal c o m2 nx ih =>
    by_cases ho : o ≠ 0
    · by_cases hc : c = 1 <;> simp [emit_muls, ho, hc, emit_count, ast_count_nodes, ih] <;> omega
    · simp [emit_muls, ho, emit_count, ih]
  | output o m2 nx ih => simp [emit_muls, emit_count, ih]
  | input o m2 nx ih => simp [emit_muls, emit_count, ih]
  | loop body m2 nx _ ih => simp [emit_muls, emit_count, ih]
  | setConst v o m2 nx ih => simp [emit_muls, emit_count, ih]
  | mul k s d m2 nx ih => simp [emit_muls, emit_count, ih]
  | copyCell s d m2 nx ih => simp [emit_muls, emit_count, ih]

/-- Helper: the emitted multiplication chain contains no movePtr, so the
movePtr-follower invariant reduces to the one of the tail. -/
theorem mv_ok_emit_muls (b : Ast) (m : Meta) (t : Ast) (ht : mv_ok t = true) :
    mv_ok (emit_muls b m t) = true := by
  induction b with
  | nil => simpa [emit_muls, mv_ok] using ht
  | movePtr c m2 nx ih => simpa [emit_muls] using ih
  | addVal c o m2 nx ih =>
    by_cases ho : o ≠ 0
    · by_cases hc : c = 1 <;> simp [emit_muls, ho, hc, mv_ok, ih]
    · simp [emit_muls, ho, ih]
  | output o m2 nx ih => simpa [emit_muls] using ih
  | input o m2 nx ih => simpa [emit_muls] using ih
  | loop body m2 nx _ ih => simpa [emit_muls] using ih
  | setConst v o m2 nx ih => simpa [emit_muls] using ih
  | mul k s d m2 nx ih => simpa [emit_muls] using ih
  | copyCell s d m2 nx ih => simpa [emit_muls] using ih

/-- Helper: the emitted multiplication chain likewise never starts a
setConst-addVal pair outside its tail. -/
theorem no_set_add0_emit_muls (b : Ast) (m : Meta) (t : Ast)
    (ht : no_set_add0 t = true)
    (htail : ∀ (c2 o2 : Int) (m2 : Meta) (rest : Ast),
      t = Ast.addVal c2 o2 m2 rest → o2 ≠ 0) :
    no_set_add0 (emit_muls b m t) = true := by
  induction b with
  | nil =>
    cases t with
    | nil => simp_all [emit_muls, no_set_add0]
    | movePtr a b c => simp_all [emit_muls, no_set_add0]
    | addVal c2 o2 m2 rest =>
      have := htail c2 o2 m2 rest rfl
      simp_all [emit_muls, no_set_add0]
    | output a b c => simp_all [emit_muls, no_set_add0]
    | input a b c => simp_all [emit_muls, no_set_add0]
    | loop a b c => simp_all [emit_muls, no_set_add0]
    | setConst a b c d => simp_all [emit_muls, no_set_add0]
    | mul a b c d e => simp_all [emit_muls, no_set_add0]
    | copyCell a b c d => simp_all [emit_muls, no_set_add0]
  | movePtr c m2 nx ih => simpa [emit_muls] using ih
  | addVal c o m2 nx ih =>
    by_cases ho : o ≠ 0
    · by_cases hc : c = 1 <;> simp [emit_muls, ho, hc, no_set_add0, ih]
    · simp [emit_muls, ho, ih]
  | output o m2 nx ih => simpa [emit_muls] using ih
  | input o m2 nx ih => simpa [emit_muls] using ih
  | loop body m2 nx _ ih => simpa [emit_muls] using ih
  | setConst v o m2 nx ih => simpa [emit_muls] using ih
  | mul k s d m2 nx ih => simpa [emit_muls] using ih
  | copyCell s d m2 nx ih => simpa [emit_muls] using ih

/-- Helper: the head of the emitted multiplication chain with an empty
tail is a copyCell, mul or setConst, all legal successors of a loop
head. -/
theorem head_ok_loop_emit (b : Ast) (m : Meta) (t : Ast) (b0 : Ast) (m0 : Meta) (n0 : Ast) :
    head_ok (Ast.loop b0 m0 n0) (emit_muls b m t) = true := by
  induction b with
  | nil => simp [emit_muls, head_ok]
  | movePtr c m2 nx ih => simpa [emit_muls] using ih
  | addVal c o m2 nx ih =>
    by_cases ho : o ≠ 0
    · by_cases hc : c = 1 <;> simp [emit_muls, ho, hc, head_ok]
    · simp [emit_muls, ho, ih]
  | output o m2 nx ih => simpa [emit_muls] using ih
  | input o m2 nx ih => simpa [emit_muls] using ih
  | loop body m2 nx _ ih => simpa [emit_muls] using ih
  | setConst v o m2 nx ih => simpa [emit_muls] using ih
  | mul k s d m2 nx ih => simpa [emit_muls] using ih
  | copyCell s d m2 nx ih => simpa [emit_muls] using ih

/-- Helper: legal successors of a loop head are closed under the head
relation. -/
theorem head_ok_loop_trans (b : Ast) (m : Meta) (n : Ast) (x y : Ast)
    (h1 : head_ok (Ast.loop b m n) x = true) (h2 : head_ok x y = true) :
    head_ok (Ast.loop b m n) y = true := by
  cases x <;> cases y <;> simp_all [head_ok]

/-- Helper: every node of the emitted multiplication chain carries the
location of the loop. -/
theorem all_nodes_at_emit_muls (b : Ast) (m : Meta) :
    all_nodes_at m (emit_muls b m Ast.nil) = true := by
  induction b with
  | nil => simp [emit_muls, all_nodes_at]
  | movePtr c m2 nx ih => simpa [emit_muls] using ih
  | addVal c o m2 nx ih =>
    by_cases ho : o ≠ 0
    · by_cases hc : c = 1 <;> simp [emit_muls, ho, hc, all_nodes_at, ih]
    · simp [emit_muls, ho, ih]
  | output o m2 nx ih => simpa [emit_muls] using ih
  | input o m2 nx ih => simpa [emit_muls] using ih
  | loop body m2 nx _ ih => simpa [emit_muls] using ih
  | setConst v o m2 nx ih => simpa [emit_muls] using ih
  | mul k s d m2 nx ih => simpa [emit_muls] using ih
  | copyCell s d m2 nx ih => simpa [emit_muls] using ih

/-- Helper: a single addVal accepted by is_multiplication_loop is the
counter decrement itself. -/
theorem is_mult_singleton (c o : Int) (m : Meta)
    (h : is_multiplication_loop (Ast.addVal c o m Ast.nil) = true) :
    c = -1 ∧ o = 0 := by
  by_cases ho : o = 0
  · subst ho
    refine ⟨?_, rfl⟩
    by_contra hc
    simp [is_multiplication_loop, is_mult_go, hc] at h
  · simp [is_multiplication_loop, is_mult_go, ho] at h

/-- Helper: ast_optimize_f never increases the node count, whatever the
fuel: every rewrite deletes or merges nodes and the multiplication-loop
emission replaces the loop and its body by at most as many nodes. -/
theorem opt_size_le : ∀ (f : Nat) (a : Ast),
    ast_count_nodes (ast_optimize_f f a) ≤ ast_count_nodes a := by
  intro f
  induction f with
  | zero => intro a; simp [ast_optimize_f]
  | succ fuel ih =>
    intro a
    rw [ast_optimize_f.eq_def]
    split
    · exact le_refl _
    · exact le_refl _
    · -- movePtr head
      rename_i fuel2 c m nx heq
      obtain rfl : fuel2 = fuel := by omega
      split
      · rename_i c2 m2 rest
        have h := ih (Ast.movePtr (c + c2) m rest)
        simp only [ast_count_nodes] at h ⊢
        omega
      · have h := ih nx
        dsimp only
        split
        · rename_i c2 o2 m2 k m3 rest heq2
          have h3 := h
          rw [heq2] at h3
          split
          · have h2 := ih (Ast.addVal c2 c m rest)
            simp only [ast_count_nodes] at h3 h2 ⊢
            omega
          · simp only [ast_count_nodes] at h ⊢
            omega
        · simp only [ast_count_nodes] at h ⊢
          omega
    · -- addVal head
      rename_i fuel2 c o m nx heq
      obtain rfl : fuel2 = fuel := by omega
      split
      · rename_i c2 o2 m2 rest
        split
        · have h := ih (Ast.addVal (c + c2) o m rest)
          simp only [ast_count_nodes] at h ⊢
          omega
        · have h := ih (Ast.addVal c2 o2 m2 rest)
          simp only [ast_count_nodes] at h ⊢
          omega
      · have h := ih nx
        simp only [ast_count_nodes] at h ⊢
        omega
    · -- output
      rename_i fuel2 o m nx heq
      obtain rfl : fuel2 = fuel := by omega
      have h := ih nx
      simp only [ast_count_nodes] at h ⊢
      omega
    · -- input
      rename_i fuel2 o m nx heq
      obtain rfl : fuel2 = fuel := by omega
      have h := ih nx
      simp only [ast_count_nodes] at h ⊢
      omega
    · -- setConst
      rename_i fuel2 v o m nx heq
      obtain rfl : fuel2 = fuel := by omega
      have h := ih nx
      dsimp only
      split
      · rename_i c2 o2 m2 rest heq2
        have h3 := h
        rw [heq2] at h3
        split
        · have h2 := ih (Ast.setConst (v + c2) o m rest)
          simp only [ast_count_nodes] at h3 h2 ⊢
          omega
        · simp only [ast_count_nodes] at h ⊢
          omega
      · simp only [ast_count_nodes] at h ⊢
        omega
    · -- mul
      rename_i fuel2 k s d m nx heq
      obtain rfl : fuel2 = fuel := by omega
      have h := ih nx
      simp only [ast_count_nodes] at h ⊢
      omega
    · -- copyCell
      rename_i fuel2 s d m nx heq
      obtain rfl : fuel2 = fuel := by omega
      have h := ih nx
      simp only [ast_count_nodes] at h ⊢
      omega
    · -- loop
      rename_i fuel2 body m nx heq
      obtain rfl : fuel2 = fuel := by omega
      have hb := ih body
      have hn := ih nx
      dsimp only
      split
      · -- body2 = addVal cb ob mb nil
        rename_i cb ob mb heqb
        have hb3 := hb
        rw [heqb] at hb3
        split
        · -- clear loop fires
          split
          · rename_i c2 o2 m2 rest heqn
            have hn3 := hn
            rw [heqn] at hn3
            split
            · have h2 := ih (Ast.setConst (0 + c2) 0 m rest)
              simp only [ast_count_nodes] at hb3 hn3 h2 ⊢
              omega
            · simp only [ast_count_nodes] at hb3 hn ⊢
              omega
          · simp only [ast_count_nodes] at hb3 hn ⊢
            omega
        · -- cb ≠ -1
          rename_i hcb
          split
          · -- is_mult singleton: impossible
            rename_i hmlt
            exact absurd (is_mult_singleton cb ob mb hmlt).1 hcb
          · simp only [ast_count_nodes] at hb3 hn ⊢
            omega
      · -- body2 general
        split
        · -- mult loop fires
          rename_i hcond
          rw [Bool.and_eq_true] at hcond
          have hmlt : is_multiplication_loop (ast_optimize_f fuel2 body) = true := hcond.2
          have h2 := ih (emit_muls (ast_optimize_f fuel2 body) m (ast_optimize_f fuel2 nx))
          rw [count_emit_muls] at h2
          have h3 := emit_count_le (ast_optimize_f fuel2 body) false hmlt
          simp only [if_neg Bool.false_ne_true] at h3
          simp only [ast_count_nodes] at hb hn h2 h3 ⊢
          omega
        · simp only [ast_count_nodes] at hb hn ⊢
          omega

/-- Helper: a setConst in front of a chain that never pairs a setConst
with an offset-0 addVal keeps the invariant as long as the chain head is
not an offset-0 addVal. -/
theorem no_set_add0_cons_setConst (v o : Int) (m : Meta) (X : Ast)
    (hX : no_set_add0 X = true)
    (hne : ∀ (c2 o2 : Int) (m2 : Meta) (rest : Ast), X = Ast.addVal c2 o2 m2 rest → o2 ≠ 0) :
    no_set_add0 (Ast.setConst v o m X) = true := by
  cases X with
  | nil => simp_all [no_set_add0]
  | movePtr a b c => simp_all [no_set_add0]
  | addVal c2 o2 m2 rest =>
    have := hne c2 o2 m2 rest rfl
    simp_all [no_set_add0]
  | output a b c => simp_all [no_set_add0]
  | input a b c => simp_all [no_set_add0]
  | loop a b c => simp_all [no_set_add0]
  | setConst a b c d => simp_all [no_set_add0]
  | mul a b c d e => simp_all [no_set_add0]
  | copyCell a b c d => simp_all [no_set_add0]

/-- Helper: the output of ast_optimize_f, at sufficient fuel, never
contains a setConst immediately followed by an addVal with offset 0:
such a pair is exactly the redex of the set-add branch, which the
optimizer always consumes. -/
theorem opt_no_set_add0 : ∀ (f : Nat) (a : Ast), ast_count_nodes a < f →
    no_set_add0 (ast_optimize_f f a) = true := by
  intro f
  induction f with
  | zero => intro a hc; omega
  | succ fuel ih =>
    intro a hc
    rw [ast_optimize_f.eq_def]
    split
    · rename_i heq
      omega
    · simp [no_set_add0]
    · -- movePtr head
      rename_i fuel2 c m nx heq
      obtain rfl : fuel2 = fuel := by omega
      simp only [ast_count_nodes] at hc
      split
      · rename_i c2 m2 rest
        apply ih
        simp only [ast_count_nodes] at *
        omega
      · have hsz := opt_size_le fuel2 nx
        dsimp only
        split
        · rename_i c2 o2 m2 k m3 rest heq2
          rw [heq2] at hsz
          split
          · apply ih
            simp only [ast_count_nodes] at *
            omega
          · rw [no_set_add0]
            exact ih nx (by omega)
        · rw [no_set_add0]
          exact ih nx (by omega)
    · -- addVal head
      rename_i fuel2 c o m nx heq
      obtain rfl : fuel2 = fuel := by omega
      simp only [ast_count_nodes] at hc
      split
      · rename_i c2 o2 m2 rest
        split
        · apply ih
          simp only [ast_count_nodes] at *
          omega
        · rw [no_set_add0]
          exact ih (Ast.addVal c2 o2 m2 rest) (by simp only [ast_count_nodes] at *; omega)
      · rw [no_set_add0]
        exact ih nx (by omega)
    · -- output
      rename_i fuel2 o m nx heq
      obtain rfl : fuel2 = fuel := by omega
      simp only [ast_count_nodes] at hc
      rw [no_set_add0]
      exact ih nx (by omega)
    · -- input
      rename_i fuel2 o m nx heq
      obtain rfl : fuel2 = fuel := by omega
      simp only [ast_count_nodes] at hc
      rw [no_set_add0]
      exact ih nx (by omega)
    · -- setConst
      rename_i fuel2 v o m nx heq
      obtain rfl : fuel2 = fuel := by omega
      simp only [ast_count_nodes] at hc
      have hsz := opt_size_le fuel2 nx
      have h1 := ih nx (by omega)
      dsimp only
      split
      · rename_i c2 o2 m2 rest heq2
        rw [heq2] at hsz h1
        split
        · apply ih
          simp only [ast_count_nodes] at *
          omega
        · rename_i ho2
          apply no_set_add0_cons_setConst
          · rw [heq2]
            exact h1
          · intro c3 o3 m3 rest3 hX
            rw [heq2] at hX
            cases hX
            simpa using ho2
      · rename_i hne
        apply no_set_add0_cons_setConst _ _ _ _ h1
        intro c3 o3 m3 rest3 hX
        exact absurd hX (hne c3 o3 m3 rest3)
    · -- mul
      rename_i fuel2 k s d m nx heq
      obtain rfl : fuel2 = fuel := by omega
      simp only [ast_count_nodes] at hc
      rw [no_set_add0]
      exact ih nx (by omega)
    · -- copyCell
      rename_i fuel2 s d m nx heq
      obtain rfl : fuel2 = fuel := by omega
      simp only [ast_count_nodes] at hc
      rw [no_set_add0]
      exact ih nx (by omega)
    · -- loop
      rename_i fuel2 body m nx heq
      obtain rfl : fuel2 = fuel := by omega
      simp only [ast_count_nodes] at hc
      have hszb := opt_size_le fuel2 body
      have hszn := opt_size_le fuel2 nx
      have h1 := ih nx (by omega)
      dsimp only
      split
      · rename_i cb ob mb heqb
        split
        · -- clear loop
          split
          · rename_i c2 o2 m2 rest heqn
            rw [heqn] at hszn h1
            split
            · apply ih
              simp only [ast_count_nodes] at *
              omega
            · rename_i ho2
              apply no_set_add0_cons_setConst
              · rw [heqn]
                exact h1
              · intro c3 o3 m3 rest3 hX
                rw [heqn] at hX
                cases hX
                simpa using ho2
          · rename_i hne
            apply no_set_add0_cons_setConst _ _ _ _ h1
            intro c3 o3 m3 rest3 hX
            exact absurd hX (hne c3 o3 m3 rest3)
        · rename_i hcb
          split
          · rename_i hmlt
            exact absurd (is_mult_singleton cb ob mb hmlt).1 hcb
          · rw [no_set_add0]
            rw [heqb] at hszb
            simp only [ast_count_nodes] at hszb
            simp [no_set_add0, h1]
      · -- body2 general
        split
        · rename_i hcond
          rw [Bool.and_eq_true] at hcond
          have hmlt : is_multiplication_loop (ast_optimize_f fuel2 body) = true := hcond.2
          have hec := emit_count_le (ast_optimize_f fuel2 body) false hmlt
          simp only [if_neg Bool.false_ne_true] at hec
          apply ih
          rw [count_emit_muls]
          omega
        · rw [no_set_add0]
          have h2 := ih body (by omega)
          simp [h2, h1]

/-- Helper: if a chain x is neither a movePtr nor an addVal at its head
and y has the same head kind as x (head_ok), then y is not a movePtr. -/
theorem head_not_mv (x y : Ast)
    (hx : ∀ (c : Int) (m : Meta) (r : Ast), x ≠ Ast.movePtr c m r)
    (hxa : ∀ (c o : Int) (m : Meta) (r : Ast), x ≠ Ast.addVal c o m r)
    (h : head_ok x y = true) :
    ∀ (c : Int) (m : Meta) (r : Ast), y ≠ Ast.movePtr c m r := by
  cases x with
  | movePtr a b r => exact absurd rfl (hx a b r)
  | addVal a b c d => exact absurd rfl (hxa a b c d)
  | nil => cases y <;> simp_all [head_ok]
  | output a b r => cases y <;> simp_all [head_ok]
  | input a b r => cases y <;> simp_all [head_ok]
  | loop a b r => cases y <;> simp_all [head_ok]
  | setConst a b r d => cases y <;> simp_all [head_ok]
  | mul a b r d e => cases y <;> simp_all [head_ok]
  | copyCell a b r d => cases y <;> simp_all [head_ok]

/-- Helper: if a chain x is not an addVal at its head and y has the same
head kind as x (head_ok), then y is not an addVal. -/
theorem head_not_add (x y : Ast)
    (hxa : ∀ (c o : Int) (m : Meta) (r : Ast), x ≠ Ast.addVal c o m r)
    (h : head_ok x y = true) :
    ∀ (c o : Int) (m : Meta) (r : Ast), y ≠ Ast.addVal c o m r := by
  cases x with
  | addVal a b c d => exact absurd rfl (hxa a b c d)
  | nil => cases y <;> simp_all [head_ok]
  | movePtr a b r => cases y <;> simp_all [head_ok]
  | output a b r => cases y <;> simp_all [head_ok]
  | input a b r => cases y <;> simp_all [head_ok]
  | loop a b r => cases y <;> simp_all [head_ok]
  | setConst a b r d => cases y <;> simp_all [head_ok]
  | mul a b r d e => cases y <;> simp_all [head_ok]
  | copyCell a b r d => cases y <;> simp_all [head_ok]

/-- Helper: head_ok relates an addVal head only to an addVal head at the
same offset, so any addVal shape of the image shares the offset. -/
theorem head_add_offset (c2 o2 : Int) (m2 : Meta) (r2 : Ast) (y : Ast)
    (h : head_ok (Ast.addVal c2 o2 m2 r2) y = true) :
    ∀ (c3 o3 : Int) (m3 : Meta) (r3 : Ast), y = Ast.addVal c3 o3 m3 r3 → o3 = o2 := by
  intro c3 o3 m3 r3 hy
  subst hy
  simp [head_ok] at h
  omega

/-- Helper: a movePtr whose tail satisfies mv_ok and does not start with
movePtr or addVal satisfies mv_ok itself. -/
theorem mv_ok_cons_movePtr (c : Int) (m : Meta) (X : Ast) (h1 : mv_ok X = true)
    (hmv : ∀ (c2 : Int) (m2 : Meta) (r : Ast), X ≠ Ast.movePtr c2 m2 r)
    (hadd : ∀ (c2 o2 : Int) (m2 : Meta) (r : Ast), X ≠ Ast.addVal c2 o2 m2 r) :
    mv_ok (Ast.movePtr c m X) = true := by
  cases X with
  | movePtr a b r => exact absurd rfl (hmv a b r)
  | addVal a b c d => exact absurd rfl (hadd a b c d)
  | nil => simp_all [mv_ok]
  | output a b r => simp_all [mv_ok]
  | input a b r => simp_all [mv_ok]
  | loop a b r => simp_all [mv_ok]
  | setConst a b r d => simp_all [mv_ok]
  | mul a b r d e => simp_all [mv_ok]
  | copyCell a b r d => simp_all [mv_ok]

/-- Helper: a movePtr whose tail satisfies inv_pairs and does not start
with another movePtr satisfies inv_pairs itself. -/
theorem inv_pairs_cons_movePtr (c : Int) (m : Meta) (X : Ast) (h1 : inv_pairs X = true)
    (hmv : ∀ (c2 : Int) (m2 : Meta) (r : Ast), X ≠ Ast.movePtr c2 m2 r) :
    inv_pairs (Ast.movePtr c m X) = true := by
  cases X with
  | movePtr a b r => exact absurd rfl (hmv a b r)
  | addVal a b c d => simp_all [inv_pairs]
  | nil => simp_all [inv_pairs]
  | output a b r => simp_all [inv_pairs]
  | input a b r => simp_all [inv_pairs]
  | loop a b r => simp_all [inv_pairs]
  | setConst a b r d => simp_all [inv_pairs]
  | mul a b r d e => simp_all [inv_pairs]
  | copyCell a b r d => simp_all [inv_pairs]

/-- Helper: an addVal whose tail satisfies inv_pairs and does not start
with an addVal at the same offset satisfies inv_pairs itself. -/
theorem inv_pairs_cons_addVal (c o : Int) (m : Meta) (X : Ast) (h1 : inv_pairs X = true)
    (hoff : ∀ (c2 o2 : Int) (m2 : Meta) (r : Ast), X = Ast.addVal c2 o2 m2 r → o2 ≠ o) :
    inv_pairs (Ast.addVal c o m X) = true := by
  cases X with
  | addVal c2 o2 m2 r =>
    have hne := hoff c2 o2 m2 r rfl
    rw [inv_pairs, Bool.and_eq_true]
    refine ⟨by simp; omega, h1⟩
  | nil => simp_all [inv_pairs]
  | movePtr a b r => simp_all [inv_pairs]
  | output a b r => simp_all [inv_pairs]
  | input a b r => simp_all [inv_pairs]
  | loop a b r => simp_all [inv_pairs]
  | setConst a b r d => simp_all [inv_pairs]
  | mul a b r d e => simp_all [inv_pairs]
  | copyCell a b r d => simp_all [inv_pairs]

/-- Helper: mv_ok of a movePtr head unfolds to mv_ok of the tail plus
the tail not starting with movePtr or addVal. -/
theorem mv_ok_movePtr_elim (c : Int) (m : Meta) (nx : Ast)
    (h : mv_ok (Ast.movePtr c m nx) = true) :
    mv_ok nx = true ∧ (∀ (c2 : Int) (m2 : Meta) (r : Ast), nx ≠ Ast.movePtr c2 m2 r) ∧
      (∀ (c2 o2 : Int) (m2 : Meta) (r : Ast), nx ≠ Ast.addVal c2 o2 m2 r) := by
  cases nx <;> simp_all [mv_ok]

/-- Master preservation lemma: on an input whose sibling lists never put
an addVal or another movePtr right after a movePtr (mv_ok),
ast_optimize_f keeps mv_ok, establishes inv_pairs (no consecutive
movePtr pair, no same-offset addVal pair) and preserves the head kind
correspondence head_ok. -/
theorem opt_master : ∀ (f : Nat) (a : Ast), mv_ok a = true → ast_count_nodes a < f →
    mv_ok (ast_optimize_f f a) = true ∧ inv_pairs (ast_optimize_f f a) = true ∧
    head_ok a (ast_optimize_f f a) = true := by
  intro f
  induction f with
  | zero => intro a hm hc; omega
  | succ fuel ih =>
    intro a hm hc
    rw [ast_optimize_f.eq_def]
    split
    · rename_i heq
      omega
    · simp [mv_ok, inv_pairs, head_ok]
    · -- movePtr head
      rename_i fuel2 c m nx heq
      obtain rfl : fuel2 = fuel := by omega
      obtain ⟨hmnx, hnxmv, hnxadd⟩ := mv_ok_movePtr_elim c m nx hm
      simp only [ast_count_nodes] at hc
      split
      · rename_i c2 m2 rest
        exact absurd rfl (hnxmv c2 m2 rest)
      · rename_i hne
        obtain ⟨i1, i2, i3⟩ := ih nx hmnx (by omega)
        have hy_mv := head_not_mv nx _ hnxmv hnxadd i3
        have hy_add := head_not_add nx _ hnxadd i3
        dsimp only
        split
        · rename_i c2 o2 m2 k m3 rest heq2
          exact absurd heq2 (hy_add c2 o2 m2 (Ast.movePtr k m3 rest))
        · refine ⟨?_, ?_, ?_⟩
          · exact mv_ok_cons_movePtr c m _ i1 hy_mv hy_add
          · exact inv_pairs_cons_movePtr c m _ i2 hy_mv
          · simp [head_ok]
    · -- addVal head
      rename_i fuel2 c o m nx heq
      obtain rfl : fuel2 = fuel := by omega
      rw [mv_ok] at hm
      simp only [ast_count_nodes] at hc
      split
      · rename_i c2 o2 m2 rest
        split
        · rename_i hoo
          have hmrest : mv_ok (Ast.addVal (c + c2) o m rest) = true := by
            rw [mv_ok] at hm ⊢
            exact hm
          have hcnt : ast_count_nodes (Ast.addVal (c + c2) o m rest) < fuel2 := by
            simp only [ast_count_nodes] at hc ⊢
            omega
          obtain ⟨j1, j2, j3⟩ := ih (Ast.addVal (c + c2) o m rest) hmrest hcnt
          exact ⟨j1, j2, j3⟩
        · rename_i hoo
          have hcnt : ast_count_nodes (Ast.addVal c2 o2 m2 rest) < fuel2 := by
            simp only [ast_count_nodes] at hc ⊢
            omega
          obtain ⟨i1, i2, i3⟩ := ih (Ast.addVal c2 o2 m2 rest) hm hcnt
          refine ⟨?_, ?_, ?_⟩
          · rw [mv_ok]
            exact i1
          · apply inv_pairs_cons_addVal _ _ _ _ i2
            intro c3 o3 m3 r3 hX
            have := head_add_offset c2 o2 m2 rest _ i3 c3 o3 m3 r3 hX
            omega
          · simp [head_ok]
      · rename_i hne
        obtain ⟨i1, i2, i3⟩ := ih nx hm (by omega)
        have hnxadd : ∀ (c2 o2 : Int) (m2 : Meta) (r : Ast), nx ≠ Ast.addVal c2 o2 m2 r :=
          fun c2 o2 m2 r hEq => hne c2 o2 m2 r hEq
        have hy_add := head_not_add nx _ hnxadd i3
        refine ⟨?_, ?_, ?_⟩
        · rw [mv_ok]
          exact i1
        · apply inv_pairs_cons_addVal _ _ _ _ i2
          intro c3 o3 m3 r3 hX
          exact absurd hX (hy_add c3 o3 m3 r3)
        · simp [head_ok]
    · -- output
      rename_i fuel2 o m nx heq
      obtain rfl : fuel2 = fuel := by omega
      rw [mv_ok] at hm
      simp only [ast_count_nodes] at hc
      obtain ⟨i1, i2, i3⟩ := ih nx hm (by omega)
      exact ⟨by rw [mv_ok]; exact i1, by rw [inv_pairs]; exact i2, by simp [head_ok]⟩
    · -- input
      rename_i fuel2 o m nx heq
      obtain rfl : fuel2 = fuel := by omega
      rw [mv_ok] at hm
      simp only [ast_count_nodes] at hc
      obtain ⟨i1, i2, i3⟩ := ih nx hm (by omega)
      exact ⟨by rw [mv_ok]; exact i1, by rw [inv_pairs]; exact i2, by simp [head_ok]⟩
    · -- setConst
      rename_i fuel2 v o m nx heq
      obtain rfl : fuel2 = fuel := by omega
      rw [mv_ok] at hm
      simp only [ast_count_nodes] at hc
      obtain ⟨i1, i2, i3⟩ := ih nx hm (by omega)
      have hsz := opt_size_le fuel2 nx
      dsimp only
      split
      · rename_i c2 o2 m2 rest heq2
        split
        · rename_i ho2
          have hmr : mv_ok (Ast.setConst (v + c2) o m rest) = true := by
            rw [mv_ok]
            rw [heq2, mv_ok] at i1
            exact i1
          have hcnt : ast_count_nodes (Ast.setConst (v + c2) o m rest) < fuel2 := by
            rw [heq2] at hsz
            simp only [ast_count_nodes] at hsz ⊢
            omega
          obtain ⟨j1, j2, j3⟩ := ih _ hmr hcnt
          exact ⟨j1, j2, j3⟩
        · exact ⟨by rw [mv_ok]; exact i1, by rw [inv_pairs]; exact i2, by simp [head_ok]⟩
      · exact ⟨by rw [mv_ok]; exact i1, by rw [inv_pairs]; exact i2, by simp [head_ok]⟩
    · -- mul
      rename_i fuel2 k s d m nx heq
      obtain rfl : fuel2 = fuel := by omega
      rw [mv_ok] at hm
      simp only [ast_count_nodes] at hc
      obtain ⟨i1, i2, i3⟩ := ih nx hm (by omega)
      exact ⟨by rw [mv_ok]; exact i1, by rw [inv_pairs]; exact i2, by simp [head_ok]⟩
    · -- copyCell
      rename_i fuel2 s d m nx heq
      obtain rfl : fuel2 = fuel := by omega
      rw [mv_ok] at hm
      simp only [ast_count_nodes] at hc
      obtain ⟨i1, i2, i3⟩ := ih nx hm (by omega)
      exact ⟨by rw [mv_ok]; exact i1, by rw [inv_pairs]; exact i2, by simp [head_ok]⟩
    · -- loop
      rename_i fuel2 body m nx heq
      obtain rfl : fuel2 = fuel := by omega
      rw [mv_ok, Bool.and_eq_true] at hm
      obtain ⟨hmb, hmn⟩ := hm
      simp only [ast_count_nodes] at hc
      obtain ⟨b1, b2, b3⟩ := ih body hmb (by omega)
      obtain ⟨i1, i2, i3⟩ := ih nx hmn (by omega)
      have hszb := opt_size_le fuel2 body
      have hszn := opt_size_le fuel2 nx
      dsimp only
      split
      · rename_i cb ob mb heqb
        split
        · -- clear loop fires
          split
          · rename_i c2 o2 m2 rest heqn
            split
            · rename_i ho2
              have hmr : mv_ok (Ast.setConst (0 + c2) 0 m rest) = true := by
                rw [mv_ok]
                rw [heqn, mv_ok] at i1
                exact i1
              have hcnt : ast_count_nodes (Ast.setConst (0 + c2) 0 m rest) < fuel2 := by
                rw [heqn] at hszn
                simp only [ast_count_nodes] at hszn ⊢
                omega
              obtain ⟨j1, j2, j3⟩ := ih _ hmr hcnt
              refine ⟨j1, j2, ?_⟩
              exact head_ok_loop_trans body m nx _ _ (by simp [head_ok]) j3
            · exact ⟨by rw [mv_ok]; exact i1, by rw [inv_pairs]; exact i2, by simp [head_ok]⟩
          · exact ⟨by rw [mv_ok]; exact i1, by rw [inv_pairs]; exact i2, by simp [head_ok]⟩
        · rename_i hcb
          split
          · rename_i hmlt
            exact absurd (is_mult_singleton cb ob mb hmlt).1 hcb
          · refine ⟨?_, ?_, by simp [head_ok]⟩
            · rw [mv_ok, Bool.and_eq_true]
              refine ⟨?_, i1⟩
              rw [heqb] at b1
              exact b1
            · rw [inv_pairs, Bool.and_eq_true]
              refine ⟨?_, i2⟩
              rw [heqb] at b2
              exact b2
      · -- body2 general
        split
        · rename_i hcond
          rw [Bool.and_eq_true] at hcond
          have hmlt := hcond.2
          have hec := emit_count_le (ast_optimize_f fuel2 body) false hmlt
          simp only [if_neg Bool.false_ne_true] at hec
          have hmr : mv_ok (emit_muls (ast_optimize_f fuel2 body) m (ast_optimize_f fuel2 nx)) = true :=
            mv_ok_emit_muls _ m _ i1
          have hcnt :
              ast_count_nodes (emit_muls (ast_optimize_f fuel2 body) m (ast_optimize_f fuel2 nx)) < fuel2 := by
            rw [count_emit_muls]
            omega
          obtain ⟨j1, j2, j3⟩ := ih _ hmr hcnt
          refine ⟨j1, j2, ?_⟩
          exact head_ok_loop_trans body m nx _ _ (head_ok_loop_emit _ m _ body m nx) j3
        · refine ⟨?_, ?_, by simp [head_ok]⟩
          · rw [mv_ok, Bool.and_eq_true]
            exact ⟨b1, i1⟩
          · rw [inv_pairs, Bool.and_eq_true]
            exact ⟨b2, i2⟩

/-- Helper: with the rewrite flag off, the block-boundary arm inserts no
residual movePtr, so the traversal leaves nil unchanged at any fuel. -/
theorem rw_seq_nil_false : ∀ (f : Nat) (off total : Int) (fm : Option Meta),
    rw_seq_f f (RwMode.inBlock false off total fm) Ast.nil = Ast.nil := by
  intro f off total fm
  cases f with
  | zero => rfl
  | succ g => simp [rw_seq_f]

/-- Helper: a chain whose block length is 0 starts at a block boundary,
that is, it is nil or begins with a loop. -/
theorem block_len_zero (a : Ast) (h : block_len a = 0) :
    a = Ast.nil ∨ ∃ (b : Ast) (m : Meta) (n : Ast), a = Ast.loop b m n := by
  cases a with
  | nil => exact Or.inl rfl
  | loop b m n => exact Or.inr ⟨b, m, n, rfl⟩
  | movePtr c m n => simp [block_len] at h
  | addVal c o m n => simp [block_len] at h
  | output o m n => simp [block_len] at h
  | input o m n => simp [block_len] at h
  | setConst v o m n => simp [block_len] at h
  | mul k s d m n => simp [block_len] at h
  | copyCell s d m n => simp [block_len] at h

/-- Helper: when the block-rewrite decision of ast_rewrite_sequences is
negative, the block is shorter than two nodes or contains no
AST_MOVE_PTR. -/
theorem doRw_false_cases (a : Ast)
    (h : (decide (2 ≤ block_len a) && block_has_move a) = false) :
    block_len a < 2 ∨ block_has_move a = false := by
  by_cases hlen : 2 ≤ block_len a
  · right
    rwa [decide_eq_true hlen, Bool.true_and] at h
  · left; omega

/-- Master lemma for the rewrite pass: after rw_seq_f followed by
remove_zero_moves, no movePtr is directly followed by a movePtr or an
addVal (mv_ok).  In a rewritten block every movePtr is marked with
count 0 and removed and the only inserted movePtr precedes a block
boundary; in an unrewritten block a movePtr can only be a whole
single-node block, again followed by a boundary. -/
theorem rw_mv_ok_master : ∀ f : Nat,
    (∀ a : Ast, 3 * ast_count_nodes a + 5 ≤ f →
      mv_ok (remove_zero_moves (rw_seq_f f RwMode.atBlock a)) = true) ∧
    (∀ (a : Ast) (rwb : Bool) (off total : Int) (fm : Option Meta),
      3 * ast_count_nodes a + 4 ≤ f →
      (rwb = false → block_len a < 2 ∨ block_has_move a = false) →
      mv_ok (remove_zero_moves (rw_seq_f f (RwMode.inBlock rwb off total fm) a)) = true) := by
  intro f
  induction f using Nat.strong_induction_on with
  | _ f ih =>
  constructor
  · -- atBlock part
    intro a hf
    cases f with
    | zero => omega
    | succ fuel =>
    cases a with
    | nil => simp [rw_seq_f, remove_zero_moves, mv_ok]
    | loop body m nx =>
      simp only [rw_seq_f, remove_zero_moves, mv_ok, Bool.and_eq_true]
      simp only [ast_count_nodes] at hf
      refine ⟨(ih fuel (by omega)).1 body (by omega), (ih fuel (by omega)).1 nx (by omega)⟩
    | movePtr c m nx =>
      simp only [rw_seq_f]
      exact (ih fuel (by omega)).2 _ _ _ _ _ (by omega) (fun hfd => doRw_false_cases _ hfd)
    | addVal c o m nx =>
      simp only [rw_seq_f]
      exact (ih fuel (by omega)).2 _ _ _ _ _ (by omega) (fun hfd => doRw_false_cases _ hfd)
    | output o m nx =>
      simp only [rw_seq_f]
      exact (ih fuel (by omega)).2 _ _ _ _ _ (by omega) (fun hfd => doRw_false_cases _ hfd)
    | input o m nx =>
      simp only [rw_seq_f]
      exact (ih fuel (by omega)).2 _ _ _ _ _ (by omega) (fun hfd => doRw_false_cases _ hfd)
    | setConst v o m nx =>
      simp only [rw_seq_f]
      exact (ih fuel (by omega)).2 _ _ _ _ _ (by omega) (fun hfd => doRw_false_cases _ hfd)
    | mul k s d m nx =>
      simp only [rw_seq_f]
      exact (ih fuel (by omega)).2 _ _ _ _ _ (by omega) (fun hfd => doRw_false_cases _ hfd)
    | copyCell s d m nx =>
      simp only [rw_seq_f]
      exact (ih fuel (by omega)).2 _ _ _ _ _ (by omega) (fun hfd => doRw_false_cases _ hfd)
  · -- inBlock part
    intro a rwb off total fm hf hside
    cases f with
    | zero => omega
    | succ fuel =>
    cases a with
    | nil =>
      simp only [rw_seq_f]
      split
      · rename_i hcond
        rw [Bool.and_eq_true, decide_eq_true_iff] at hcond
        simp [remove_zero_moves, if_neg hcond.2, mv_ok]
      · simp [remove_zero_moves, mv_ok]
    | loop body m2 n2 =>
      simp only [ast_count_nodes] at hf
      have hb := (ih fuel (by omega)).1 body (by omega)
      have hn := (ih fuel (by omega)).1 n2 (by omega)
      simp only [rw_seq_f]
      split
      · rename_i hcond
        rw [Bool.and_eq_true, decide_eq_true_iff] at hcond
        simp only [remove_zero_moves, if_neg hcond.2, mv_ok, Bool.and_eq_true]
        exact ⟨trivial, hb, hn⟩
      · simp only [remove_zero_moves, mv_ok, Bool.and_eq_true]
        exact ⟨hb, hn⟩
    | movePtr c m2 nx =>
      simp only [ast_count_nodes] at hf
      cases rwb with
      | true =>
        simp only [rw_seq_f, if_pos rfl]
        simp only [remove_zero_moves, if_pos rfl]
        exact (ih fuel (by omega)).2 nx true (off + c) total _ (by omega)
          (fun h => absurd h (by simp))
      | false =>
        have hlen : block_len nx = 0 := by
          rcases hside rfl with h | h
          · simp only [block_len] at h; omega
          · simp [block_has_move] at h
        simp only [rw_seq_f, if_neg (by simp : ¬ (false = true))]
        rcases block_len_zero nx hlen with rfl | ⟨b2, mm, n2, rfl⟩
        · rw [rw_seq_nil_false]
          simp only [remove_zero_moves]
          split <;> simp [mv_ok]
        · simp only [ast_count_nodes] at hf
          obtain ⟨f3, rfl⟩ : ∃ f3, fuel = f3 + 1 := ⟨fuel - 1, by omega⟩
          have hb := (ih f3 (by omega)).1 b2 (by omega)
          have hn := (ih f3 (by omega)).1 n2 (by omega)
          simp only [rw_seq_f, if_neg (by simp : ¬ (false = true))]
          by_cases hc : c = 0
          · subst hc
            simp only [remove_zero_moves, if_pos rfl, mv_ok, Bool.and_eq_true]
            exact ⟨hb, hn⟩
          · simp only [remove_zero_moves, if_neg hc, mv_ok, Bool.and_eq_true]
            exact ⟨trivial, hb, hn⟩
    | addVal c o m2 nx =>
      simp only [ast_count_nodes] at hf
      simp only [rw_seq_f, remove_zero_moves, mv_ok]
      apply (ih fuel (by omega)).2 _ _ _ _ _ (by omega)
      intro hfd
      rcases hside hfd with h | h
      · left; simp only [block_len] at h; omega
      · right; simpa [block_has_move] using h
    | output o m2 nx =>
      simp only [ast_count_nodes] at hf
      simp only [rw_seq_f, remove_zero_moves, mv_ok]
      apply (ih fuel (by omega)).2 _ _ _ _ _ (by omega)
      intro hfd
      rcases hside hfd with h | h
      · left; simp only [block_len] at h; omega
      · right; simpa [block_has_move] using h
    | input o m2 nx =>
      simp only [ast_count_nodes] at hf
      simp only [rw_seq_f, remove_zero_moves, mv_ok]
      apply (ih fuel (by omega)).2 _ _ _ _ _ (by omega)
      intro hfd
      rcases hside hfd with h | h
      · left; simp only [block_len] at h; omega
      · right; simpa [block_has_move] using h
    | setConst v o m2 nx =>
      simp only [ast_count_nodes] at hf
      simp only [rw_seq_f, remove_zero_moves, mv_ok]
      apply (ih fuel (by omega)).2 _ _ _ _ _ (by omega)
      intro hfd
      rcases hside hfd with h | h
      · left; simp only [block_len] at h; omega
      · right; simpa [block_has_move] using h
    | mul k s d m2 nx =>
      simp only [ast_count_nodes] at hf
      simp only [rw_seq_f, remove_zero_moves, mv_ok]
      apply (ih fuel (by omega)).2 _ _ _ _ _ (by omega)
      intro hfd
      rcases hside hfd with h | h
      · left; simp only [block_len] at h; omega
      · right; simpa [block_has_move] using h
    | copyCell s d m2 nx =>
      simp only [ast_count_nodes] at hf
      simp only [rw_seq_f, remove_zero_moves, mv_ok]
      apply (ih fuel (by omega)).2 _ _ _ _ _ (by omega)
      intro hfd
      rcases hside hfd with h | h
      · left; simp only [block_len] at h; omega
      · right; simpa [block_has_move] using h

/-- C6: after ast_rewrite_sequences followed by ast_optimize, in every
sibling list of the result (the root list and every loop body) no two
consecutive siblings are both movePtr and no two consecutive siblings
are both addVal with the same offset. -/
theorem c6_no_coalesceable_pairs (a : Ast) :
    inv_pairs (ast_optimize (ast_rewrite_sequences a)) = true := by
  have hmv : mv_ok (ast_rewrite_sequences a) = true := by
    rw [ast_rewrite_sequences]
    exact (rw_mv_ok_master (3 * ast_count_nodes a + 5)).1 a (le_refl _)
  rw [ast_optimize]
  exact (opt_master (ast_count_nodes (ast_rewrite_sequences a) + 1)
    (ast_rewrite_sequences a) hmv (by omega)).2.1

/-- C3, amended: the set-add coalescing of ast_optimize compares the
AddVal offset with 0, not with the SetConst offset.  A setConst at any
offset o followed by an addVal at offset 0 becomes setConst (v+c) o; a
same-offset pair with o nonzero is left unchanged; the invariant that
actually holds after ast_optimize is that no setConst is immediately
followed by an addVal at offset 0. -/
theorem c3_set_add_coalescing_amended :
    (∀ (v c o : Int) (m m2 : Meta),
      ast_optimize (Ast.setConst v o m (Ast.addVal c 0 m2 Ast.nil)) =
        Ast.setConst (v + c) o m Ast.nil) ∧
    (∀ (v c o : Int) (m m2 : Meta), o ≠ 0 →
      ast_optimize (Ast.setConst v o m (Ast.addVal c o m2 Ast.nil)) =
        Ast.setConst v o m (Ast.addVal c o m2 Ast.nil)) ∧
    (∀ a : Ast, no_set_add0 (ast_optimize a) = true) := by
  refine ⟨?_, ?_, ?_⟩
  · intro v c o m m2
    simp [ast_optimize, ast_count_nodes, ast_optimize_f]
  · intro v c o m m2 h
    simp [ast_optimize, ast_count_nodes, ast_optimize_f, h]
  · intro a
    rw [ast_optimize]
    exact opt_no_set_add0 _ a (by omega)

/-- C3 witness: at offset 3 the pair setConst 5 3, addVal 2 0 collapses
to setConst 7 3, the same-offset pair setConst 5 3, addVal 2 3 stays,
and the collapsed output satisfies the amended invariant. -/
theorem c3_set_add_coalescing_amended_witness :
    ((3 : Int) ≠ 0 ∧
     ast_optimize (Ast.setConst 5 3 ⟨1, 1⟩ (Ast.addVal 2 0 ⟨1, 2⟩ Ast.nil)) =
       Ast.setConst (5 + 2) 3 ⟨1, 1⟩ Ast.nil) ∧
    ast_optimize (Ast.setConst 5 3 ⟨1, 1⟩ (Ast.addVal 2 3 ⟨1, 2⟩ Ast.nil)) =
      Ast.setConst 5 3 ⟨1, 1⟩ (Ast.addVal 2 3 ⟨1, 2⟩ Ast.nil) ∧
    no_set_add0 (ast_optimize (Ast.setConst 5 3 ⟨1, 1⟩ (Ast.addVal 2 0 ⟨1, 2⟩ Ast.nil))) = true :=
  ⟨⟨by decide, c3_set_add_coalescing_amended.1 5 2 3 ⟨1, 1⟩ ⟨1, 2⟩⟩,
   c3_set_add_coalescing_amended.2.1 5 2 3 ⟨1, 1⟩ ⟨1, 2⟩ (by decide),
   c3_set_add_coalescing_amended.2.2 _⟩

/-- C5, amended: when the optimized loop body passes
is_multiplication_loop, ast_optimize replaces the loop by the chain
emit_muls builds from the optimized body (copyCell 0 o for count 1, mul
k 0 o otherwise, in body order, closed by setConst 0 0); every emitted
node carries the loop's location; and a loop whose optimized body is
neither a multiplication body nor a single addVal with count -1 (the
clear-loop shape, which fires at any offset) is left intact. -/
theorem c5_mult_loop_amended :
    (∀ (body : Ast) (m : Meta), is_multiplication_loop (ast_optimize body) = true →
      ast_optimize (Ast.loop body m Ast.nil) = emit_muls (ast_optimize body) m Ast.nil) ∧
    (∀ (b : Ast) (m : Meta), all_nodes_at m (emit_muls b m Ast.nil) = true) ∧
    (∀ (body : Ast) (m : Meta), is_multiplication_loop (ast_optimize body) = false →
      clear_shape (ast_optimize body) = false →
      ast_optimize (Ast.loop body m Ast.nil) = Ast.loop (ast_optimize body) m Ast.nil) := by
  refine ⟨?_, fun b m => all_nodes_at_emit_muls b m, ?_⟩
  · intro body m hmul
    have h2 : ast_count_nodes (Ast.loop body m Ast.nil) + 1 =
        (ast_count_nodes body + 1) + 1 := by
      simp [ast_count_nodes]
      omega
    rw [ast_optimize, h2]
    simp only [ast_optimize_f]
    rw [show ast_optimize_f (ast_count_nodes body + 1) body = ast_optimize body from rfl]
    split
    · rename_i cb ob mb heqb
      rw [heqb] at hmul
      obtain ⟨rfl, rfl⟩ := is_mult_singleton cb ob mb hmul
      rw [heqb]
      simp [emit_muls]
    · have hne : ast_optimize body ≠ Ast.nil := by
        intro h
        rw [h] at hmul
        simp [is_multiplication_loop, is_mult_go] at hmul
      rw [if_pos (by simp [hne, hmul])]
      exact emit_like_fix _ _ (emit_like_emit_muls _ m _ rfl)
  · intro body m hmul hclear
    have h2 : ast_count_nodes (Ast.loop body m Ast.nil) + 1 =
        (ast_count_nodes body + 1) + 1 := by
      simp [ast_count_nodes]
      omega
    rw [ast_optimize, h2]
    simp only [ast_optimize_f]
    rw [show ast_optimize_f (ast_count_nodes body + 1) body = ast_optimize body from rfl]
    split
    · rename_i cb ob mb heqb
      rw [heqb] at hmul hclear
      have hcb : ¬ (cb = -1) := by
        simp [clear_shape] at hclear
        exact hclear
      rw [if_neg hcb, hmul]
      simp [heqb]
    · rw [if_neg (by simp [hmul])]

/-- C5 witness: the loop over addVal (-1) 0, addVal 2 1 becomes
mul 2 0 1 followed by setConst 0 0 at the loop's location, and the loop
over a single output node is left intact. -/
theorem c5_mult_loop_amended_witness :
    (is_multiplication_loop
        (ast_optimize (Ast.addVal (-1) 0 ⟨2, 1⟩ (Ast.addVal 2 1 ⟨2, 2⟩ Ast.nil))) = true ∧
     ast_optimize
        (Ast.loop (Ast.addVal (-1) 0 ⟨2, 1⟩ (Ast.addVal 2 1 ⟨2, 2⟩ Ast.nil)) ⟨1, 1⟩ Ast.nil) =
       emit_muls (ast_optimize (Ast.addVal (-1) 0 ⟨2, 1⟩ (Ast.addVal 2 1 ⟨2, 2⟩ Ast.nil)))
         ⟨1, 1⟩ Ast.nil) ∧
    (is_multiplication_loop (ast_optimize (Ast.output 0 ⟨2, 1⟩ Ast.nil)) = false ∧
     clear_shape (ast_optimize (Ast.output 0 ⟨2, 1⟩ Ast.nil)) = false ∧
     ast_optimize (Ast.loop (Ast.output 0 ⟨2, 1⟩ Ast.nil) ⟨1, 1⟩ Ast.nil) =
       Ast.loop (ast_optimize (Ast.output 0 ⟨2, 1⟩ Ast.nil)) ⟨1, 1⟩ Ast.nil) :=
  ⟨⟨by decide, c5_mult_loop_amended.1 _ _ (by decide)⟩,
   by decide, by decide, c5_mult_loop_amended.2.2 _ _ (by decide) (by decide)⟩

end BfDynasm
